import Mathlib

/-!
Verification of the Two Flags pawn-game engine (`two_flags.py`).

This file gives a shallow embedding of the game-state model, the move
generator, the terminal detector, the evaluator and the search engine of
the repository, and proves or refutes the frozen claims about them.

Modelling conventions:
* Python board cells hold arbitrary characters; observations in the code
  are only equality comparisons with the characters W, B and the dot, so
  cells are embedded as the quotient `Cell` with a constructor for every
  other character (`Cell.X`).
* The board is a total function `Fin 8 → Fin 8 → Cell`; `board r c`
  embeds `self.board[row][col]`.  Coordinates travelling through moves
  are `Int` exactly as Python ints are; accesses are converted with
  `Int.emod 8`, which agrees with Python list indexing on `-8 ≤ i < 8`
  (every access performed by the source is in `[0,8)` or guarded by
  `is_valid_pos`).
* `int(...)` on a non-digit character raises `ValueError`; fallible
  operations are embedded in `Except Unit`.
* The wall-clock method `should_stop` is embedded by an oracle
  `Sched : Nat → Bool` giving the result of the k-th poll; the variants
  suffixed `NT` fix the oracle to `false` (the hypothesis "the time
  budget never triggers an abort").
-/

namespace TwoFlags

/-- A board cell: the characters W, B, the empty dot, or any other
character that `setup_from_string` may store verbatim. -/
inductive Cell where
  | W : Cell
  | B : Cell
  | E : Cell
  | X : Char → Cell
deriving DecidableEq, Repr

/-- Interpretation of a raw character as a board cell (the embedding of
storing that character in the Python board). -/
def toCell (c : Char) : Cell :=
  if c = 'W' then Cell.W else if c = 'B' then Cell.B else if c = '.' then Cell.E else Cell.X c

/-- `Board r c` embeds `self.board[row][col]`. -/
abbrev Board := Fin 8 → Fin 8 → Cell

/-- A move `(from_col, from_row, to_col, to_row)`, exactly the Python tuple. -/
abbrev Move := Int × Int × Int × Int

/-- Conversion of an integer index to a board index; agrees with Python
list indexing for `-8 ≤ i < 8` (all accesses made by the source). -/
def fin8 (i : Int) : Fin 8 :=
  ⟨(i % 8).toNat, by
    have h1 : 0 ≤ i % 8 := Int.emod_nonneg i (by norm_num)
    have h2 : i % 8 < 8 := Int.emod_lt_of_pos i (by norm_num)
    omega⟩

/-- Read `board[row][col]`. -/
def bget (bd : Board) (col row : Int) : Cell :=
  bd (fin8 row) (fin8 col)

/-- Write `board[row][col] = p`. -/
def bset (bd : Board) (col row : Int) (p : Cell) : Board :=
  fun r c => if r = fin8 row ∧ c = fin8 col then p else bd r c

/-- The all-empty board. -/
def emptyBoard : Board := fun _ _ => Cell.E

/-- Embedding of `GameState` (its data fields). -/
structure GameState where
  board : Board
  current_player : Cell
  en_passant_target : Option (Int × Int)
  move_history : List Move
deriving DecidableEq

/-- `BLACK if x == WHITE else WHITE` — the player/color flip used
throughout the source. -/
def flip_color (c : Cell) : Cell :=
  if c = Cell.W then Cell.B else Cell.W

/-- Embedding of `GameState.is_valid_pos`. -/
def is_valid_pos (col row : Int) : Bool :=
  decide (0 ≤ col ∧ col < 8 ∧ 0 ≤ row ∧ row < 8)

/-- Embedding of `GameState.get_all_pieces`: row-major scan collecting
`(col, row)` pairs of cells equal to `color`. -/
def get_all_pieces (s : GameState) (color : Cell) : List (Int × Int) :=
  (List.finRange 8).flatMap fun r =>
    (List.finRange 8).filterMap fun c =>
      if s.board r c = color then some (((c : Nat) : Int), ((r : Nat) : Int)) else none

/-- Embedding of `GameState.generate_moves`: for each own pawn, the
single forward step (with the nested double step from the starting row),
then the two diagonal directions with normal and en-passant captures,
in source order. -/
def generate_moves (s : GameState) : List Move :=
  let player := s.current_player
  let direction : Int := if player = Cell.W then 1 else -1
  let start_row : Int := if player = Cell.W then 1 else 6
  let opponent := flip_color player
  (get_all_pieces s player).flatMap fun p =>
    let col := p.1
    let row := p.2
    let forward : List Move :=
      let new_row := row + direction
      if is_valid_pos col new_row ∧ bget s.board col new_row = Cell.E then
        (col, row, col, new_row) ::
          (if row = start_row then
            let new_row2 := row + 2 * direction
            if is_valid_pos col new_row2 ∧ bget s.board col new_row2 = Cell.E then
              [(col, row, col, new_row2)]
            else []
          else [])
      else []
    let captures : List Move :=
      [(-1 : Int), 1].flatMap fun dcol =>
        let new_col := col + dcol
        let new_row := row + direction
        if is_valid_pos new_col new_row then
          if bget s.board new_col new_row = opponent then
            [(col, row, new_col, new_row)]
          else if s.en_passant_target = some (new_col, new_row) ∧
              bget s.board new_col row = opponent then
            [(col, row, new_col, new_row)]
          else []
        else []
    forward ++ captures

/-- Embedding of `GameState.make_move`.  The Python method first deep
copies the receiver (`self.copy()`) and mutates only the copy; the
embedding therefore is a pure function of the receiver's value, and the
receiver is unchanged by construction. -/
def make_move (s : GameState) (m : Move) : GameState :=
  match m with
  | (from_col, from_row, to_col, to_row) =>
    let piece := bget s.board from_col from_row
    let b1 :=
      if s.en_passant_target = some (to_col, to_row) then
        bset s.board to_col from_row Cell.E
      else s.board
    let b2 := bset b1 from_col from_row Cell.E
    let b3 := bset b2 to_col to_row piece
    let ep :=
      if (to_row - from_row).natAbs = 2 then
        some (to_col, (from_row + to_row).fdiv 2)
      else none
    { board := b3
      current_player := flip_color s.current_player
      en_passant_target := ep
      move_history := s.move_history ++ [m] }

/-- The per-column scan of `is_terminal`'s first loop: for each column in
order, first the white-on-row-7 test, then the black-on-row-0 test. -/
def endScan (s : GameState) : List (Fin 8) → Option Cell
  | [] => none
  | c :: rest =>
    if s.board (7 : Fin 8) c = Cell.W then some Cell.W
    else if s.board (0 : Fin 8) c = Cell.B then some Cell.B
    else endScan s rest

/-- Embedding of `GameState.is_terminal`. -/
def is_terminal (s : GameState) : Bool × Option Cell :=
  match endScan s (List.finRange 8) with
  | some w => (true, some w)
  | none =>
    let white_pawns := (get_all_pieces s Cell.W).length
    let black_pawns := (get_all_pieces s Cell.B).length
    if white_pawns = 0 then (true, some Cell.B)
    else if black_pawns = 0 then (true, some Cell.W)
    else if generate_moves s = [] then (true, some (flip_color s.current_player))
    else (false, none)

/-- Embedding of `GameState.move_to_string` (a Python string is embedded
as its character list).  `chr(ord('a') + c)` is embedded through
`Int.toNat`; the two agree on the in-range columns `0 ≤ c < 26`. -/
def move_to_string (m : Move) : List Char :=
  match m with
  | (from_col, from_row, to_col, to_row) =>
    [Char.ofNat (97 + from_col.toNat)] ++ (toString (from_row + 1)).toList ++
      [Char.ofNat (97 + to_col.toNat)] ++ (toString (to_row + 1)).toList

/-- Embedding of `GameState.string_to_move`: strings shorter than 4
characters give `none`; `int(...)` on a non-digit rank character raises
(`Except.error`); otherwise the decoded tuple is returned with no range
check. -/
def string_to_move (cs : List Char) : Except Unit (Option Move) :=
  match cs with
  | c0 :: c1 :: c2 :: c3 :: _ =>
    let from_col : Int := (c0.toNat : Int) - 97
    if c1.isDigit then
      let from_row : Int := ((c1.toNat : Int) - 48) - 1
      let to_col : Int := (c2.toNat : Int) - 97
      if c3.isDigit then
        let to_row : Int := ((c3.toNat : Int) - 48) - 1
        Except.ok (some (from_col, from_row, to_col, to_row))
      else Except.error ()
    else Except.error ()
  | _ => Except.ok none

/-- The per-token body of `setup_from_string`'s loop: tokens shorter
than 3 characters are skipped; `int(...)` on a non-digit rank character
raises; in-range decodes store the token's first character verbatim. -/
def setupStep (bd : Board) (piece : List Char) : Except Unit Board :=
  match piece with
  | ch0 :: ch1 :: ch2 :: _ =>
    let col : Int := (ch1.toNat : Int) - 97
    if ch2.isDigit then
      let row : Int := ((ch2.toNat : Int) - 48) - 1
      if 0 ≤ col ∧ col < 8 ∧ 0 ≤ row ∧ row < 8 then
        pure (bset bd col row (toCell ch0))
      else pure bd
    else Except.error ()
  | _ => pure bd

/-- Embedding of `GameState.setup_from_string`, applied to the
whitespace-split token list.  `parts[0]` on an empty list raises
`IndexError` (`Except.error`); a leading `Setup` token is dropped; the
board is cleared first and then each token is processed by
`setupStep`. -/
def setup_from_string (parts0 : List (List Char)) : Except Unit Board :=
  match parts0 with
  | [] => Except.error ()
  | p0 :: rest =>
    (if p0 = "Setup".toList then rest else p0 :: rest).foldlM setupStep emptyBoard

/-- Embedding of `GameState.setup_initial_position`: white pawns on row
index 1, black pawns on row index 6. -/
def initialBoard : Board := fun r _ =>
  if r = (1 : Fin 8) then Cell.W else if r = (6 : Fin 8) then Cell.B else Cell.E

/-- The freshly constructed initial game state. -/
def initialState : GameState :=
  { board := initialBoard
    current_player := Cell.W
    en_passant_target := none
    move_history := [] }

/-! ## Evaluator -/

/-- `WIN_VALUE`. -/
def WIN_VALUE : Int := 10000

/-- `Evaluator.advancement_weight`. -/
def advancement_weight : Int := 10

/-- `Evaluator.material_weight`. -/
def material_weight : Int := 100

/-- `Evaluator.passed_pawn_weight`. -/
def passed_pawn_weight : Int := 30

/-- `Evaluator.center_weight`. -/
def center_weight : Int := 5

/-- Embedding of `Evaluator.is_passed_pawn`.  The Python while loop walks
`check_row` from `row + direction` towards the board edge; its result is
whether no opponent pawn sits on the column or an adjacent column at any
of those rows, which is what the quantifier-free scan below computes. -/
def is_passed_pawn (s : GameState) (col row : Int) (color : Cell) : Bool :=
  let opponent := flip_color color
  let direction : Int := if color = Cell.W then 1 else -1
  let rowsAhead : List Int :=
    if direction = 1 then ((List.range 8).map Int.ofNat).filter (fun r => row < r)
    else ((List.range 8).map Int.ofNat).filter (fun r => r < row)
  !(rowsAhead.any fun check_row =>
    [col - 1, col, col + 1].any fun check_col =>
      decide (0 ≤ check_col ∧ check_col < 8) &&
        decide (bget s.board check_col check_row = opponent))

/-- The per-own-pawn summand of `Evaluator.evaluate`. -/
def myPawnScore (s : GameState) (maximizing_color : Cell) (p : Int × Int) : Int :=
  let advancement := if maximizing_color = Cell.W then p.2 else 7 - p.2
  advancement * advancement_weight +
    (if is_passed_pawn s p.1 p.2 maximizing_color then
      passed_pawn_weight + advancement * 5 else 0) +
    (if 2 ≤ p.1 ∧ p.1 ≤ 5 then center_weight else 0)

/-- The per-opponent-pawn summand of `Evaluator.evaluate` (subtracted). -/
def oppPawnScore (s : GameState) (opponent : Cell) (p : Int × Int) : Int :=
  let advancement := if opponent = Cell.W then p.2 else 7 - p.2
  advancement * advancement_weight +
    (if is_passed_pawn s p.1 p.2 opponent then
      passed_pawn_weight + advancement * 5 else 0)

/-- Embedding of `Evaluator.evaluate`. -/
def evaluate (s : GameState) (maximizing_color : Cell) : Int :=
  let t := is_terminal s
  if t.1 then
    if t.2 = some maximizing_color then WIN_VALUE
    else if t.2 ≠ none then -WIN_VALUE
    else 0
  else
    let opponent := flip_color maximizing_color
    let my_pawns := get_all_pieces s maximizing_color
    let opp_pawns := get_all_pieces s opponent
    let score0 : Int :=
      ((my_pawns.length : Int) - (opp_pawns.length : Int)) * material_weight
    let score1 := my_pawns.foldl (fun acc p => acc + myPawnScore s maximizing_color p) score0
    opp_pawns.foldl (fun acc p => acc - oppPawnScore s opponent p) score1

/-! ## Search engine -/

/-- The embedding of Python's `float('inf')` as used for search windows:
a value larger than every score the search can produce. -/
def INF : Int := 1000000000

/-- Stable descending insertion of a scored move: it passes strictly
higher-scored entries and stops before the first entry whose score is
not higher, so equal scores keep their original order. -/
def insertDesc (x : Int × Move) : List (Int × Move) → List (Int × Move)
  | [] => [x]
  | y :: ys => if x.1 < y.1 then y :: insertDesc x ys else x :: y :: ys

/-- Stable sort by score descending.  Python's `list.sort(key=...,
reverse=True)` is a stable descending sort, and every stable sort by the
same key yields the same list. -/
def sortDesc : List (Int × Move) → List (Int × Move)
  | [] => []
  | x :: xs => insertDesc x (sortDesc xs)

/-- Embedding of `TwoFlagsAI.order_moves`: score each move (capture,
en-passant, advancement, center), then sort by score descending with a
stable sort, exactly as Python's `list.sort(key=..., reverse=True)`. -/
def order_moves (s : GameState) (moves : List Move) : List Move :=
  let opponent := flip_color s.current_player
  let scored := moves.map fun m =>
    match m with
    | (_, _, to_col, to_row) =>
      let sc1 : Int := if bget s.board to_col to_row = opponent then 100 else 0
      let sc2 := sc1 + (if s.en_passant_target = some (to_col, to_row) then 100 else 0)
      let sc3 := sc2 + (if s.current_player = Cell.W then to_row * 5 else (7 - to_row) * 5)
      let sc4 := sc3 + (if 2 ≤ to_col ∧ to_col ≤ 5 then 3 else 0)
      (sc4, m)
  (sortDesc scored).map fun p => p.2

/-- The depth-biased value that `alpha_beta` returns at a terminal node. -/
def termValue (ai_color : Cell) (s : GameState) (depth : Nat) : Int :=
  match (is_terminal s).2 with
  | some w =>
    if w = ai_color then WIN_VALUE - (50 - (depth : Int))
    else -WIN_VALUE + (50 - (depth : Int))
  | none => 0

/-- The child loop of `alpha_beta`: fail-soft accumulation with the
`alpha >= beta` cutoff, threading `best_score` and `alpha`. -/
def abLoopNT (child : GameState → Int → Int → Bool → Int) (s : GameState) :
    List Move → Int → Int → Int → Bool → Int
  | [], best, _, _, _ => best
  | mv :: rest, best, alpha, beta, maximizing =>
    let new_state := make_move s mv
    let score := -child new_state (-beta) (-alpha) (!maximizing)
    let best2 := max best score
    let alpha2 := max alpha score
    if beta ≤ alpha2 then best2
    else abLoopNT child s rest best2 alpha2 beta maximizing

/-- Embedding of `TwoFlagsAI.alpha_beta` under the hypothesis that
`should_stop` always answers `False` (the time budget never triggers an
abort); the `maximizing` argument is threaded but, as in the source,
never read.  The search only ever calls it with depths in `[0, 49]`,
embedded as `Nat`. -/
def alphaBetaNT (ai_color : Cell) : Nat → GameState → Int → Int → Bool → Int
  | depth, s, alpha, beta, maximizing =>
    if (is_terminal s).1 then termValue ai_color s depth
    else
      match depth with
      | 0 => evaluate s ai_color
      | d + 1 =>
        let moves := order_moves s (generate_moves s)
        abLoopNT (fun st a b mx => alphaBetaNT ai_color d st a b mx) s moves (-INF) alpha beta maximizing

/-- The root loop of `search_root`: strict-improvement best tracking,
alpha tightening, no cutoff test. -/
def rootLoopNT (child : GameState → Int → Int → Bool → Int) (s : GameState) :
    List Move → Move → Int → Int → Int → Option Move × Int
  | [], best_move, best_score, _, _ => (some best_move, best_score)
  | mv :: rest, best_move, best_score, alpha, beta =>
    let new_state := make_move s mv
    let score := -child new_state (-beta) (-alpha) false
    let bm := if best_score < score then mv else best_move
    let bs := if best_score < score then score else best_score
    let alpha2 := max alpha score
    rootLoopNT child s rest bm bs alpha2 beta

/-- Embedding of `TwoFlagsAI.search_root` with `should_stop ≡ False`. -/
def searchRootNT (ai_color : Cell) (s : GameState) (depth : Nat) : Option Move × Int :=
  let moves := generate_moves s
  if moves = [] then (none, -WIN_VALUE)
  else
    let ordered := order_moves s moves
    rootLoopNT (fun st a b mx => alphaBetaNT ai_color (depth - 1) st a b mx) s
      ordered ordered.headI (-INF) (-INF) INF

/-! ## Timed search

The wall clock enters the engine only through `should_stop`; a run is
determined by the sequence of answers of its polls.  `Sched k` is the
answer of the `k`-th poll, and the poll counter `k` is threaded through
the computation; `TimeoutError` is `Except.error ()`. -/

/-- Poll oracle: the result of each successive `should_stop` call. -/
abbrev Sched := Nat → Bool

/-- The never-abort schedule. -/
def neverStop : Sched := fun _ => false

/-- The schedule whose every poll reports that time is up. -/
def stopNow : Sched := fun _ => true

/-- The child loop of `alpha_beta` with timeout propagation. -/
def abLoopT (child : GameState → Int → Int → Bool → Nat → Except Unit (Int × Nat))
    (s : GameState) :
    List Move → Int → Int → Int → Bool → Nat → Except Unit (Int × Nat)
  | [], best, _, _, _, k => Except.ok (best, k)
  | mv :: rest, best, alpha, beta, maximizing, k =>
    match child (make_move s mv) (-beta) (-alpha) (!maximizing) k with
    | Except.error () => Except.error ()
    | Except.ok (cv, k2) =>
      let score := -cv
      let best2 := max best score
      let alpha2 := max alpha score
      if beta ≤ alpha2 then Except.ok (best2, k2)
      else abLoopT child s rest best2 alpha2 beta maximizing k2

/-- Embedding of `TwoFlagsAI.alpha_beta` with the `should_stop` poll at
the top of every call; `q` is the poll oracle and `k` the poll counter. -/
def alphaBetaT (ai_color : Cell) (q : Sched) :
    Nat → GameState → Int → Int → Bool → Nat → Except Unit (Int × Nat)
  | depth, s, alpha, beta, maximizing, k =>
    if q k then Except.error ()
    else
      let k1 := k + 1
      if (is_terminal s).1 then Except.ok (termValue ai_color s depth, k1)
      else
        match depth with
        | 0 => Except.ok (evaluate s ai_color, k1)
        | d + 1 =>
          let moves := order_moves s (generate_moves s)
          abLoopT (fun st a b mx kk => alphaBetaT ai_color q d st a b mx kk) s
            moves (-INF) alpha beta maximizing k1

/-- The root loop of `search_root` with the per-move `should_stop` poll. -/
def rootLoopT (child : GameState → Int → Int → Bool → Nat → Except Unit (Int × Nat))
    (q : Sched) (s : GameState) :
    List Move → Move → Int → Int → Int → Nat → Except Unit ((Option Move × Int) × Nat)
  | [], best_move, best_score, _, _, k => Except.ok ((some best_move, best_score), k)
  | mv :: rest, best_move, best_score, alpha, beta, k =>
    if q k then Except.error ()
    else
      match child (make_move s mv) (-beta) (-alpha) false (k + 1) with
      | Except.error () => Except.error ()
      | Except.ok (cv, k2) =>
        let score := -cv
        let bm := if best_score < score then mv else best_move
        let bs := if best_score < score then score else best_score
        let alpha2 := max alpha score
        rootLoopT child q s rest bm bs alpha2 beta k2

/-- Embedding of `TwoFlagsAI.search_root`. -/
def searchRootT (ai_color : Cell) (q : Sched) (s : GameState) (depth : Nat) (k : Nat) :
    Except Unit ((Option Move × Int) × Nat) :=
  let moves := generate_moves s
  if moves = [] then Except.ok ((none, -WIN_VALUE), k)
  else
    let ordered := order_moves s moves
    rootLoopT (fun st a b mx kk => alphaBetaT ai_color q (depth - 1) st a b mx kk) q s
      ordered ordered.headI (-INF) (-INF) INF k

/-- The iterative-deepening loop of `get_best_move`: for each depth, the
top-of-loop poll, then `search_root`, the best-move overwrite, and the
forced-win early exit; a `TimeoutError` ends the loop keeping the last
completed answer. -/
def gbmLoop (ai_color : Cell) (q : Sched) (s : GameState) :
    List Nat → Move → Nat → Move
  | [], best_move, _ => best_move
  | depth :: rest, best_move, k =>
    if q k then best_move
    else
      match searchRootT ai_color q s depth (k + 1) with
      | Except.error () => best_move
      | Except.ok ((mv, score), k2) =>
        let best2 := match mv with | some m => m | none => best_move
        if WIN_VALUE - 100 ≤ score then best2
        else gbmLoop ai_color q s rest best2 k2

/-- Embedding of `TwoFlagsAI.get_best_move`: no legal moves gives no
move; a single legal move is returned at once; otherwise iterative
deepening over depths `1..49` starting from the generation-order first
move as default. -/
def get_best_move (ai_color : Cell) (q : Sched) (s : GameState) : Option Move :=
  let moves := generate_moves s
  match moves with
  | [] => none
  | m0 :: rest =>
    if rest.length = 0 then some m0
    else some (gbmLoop ai_color q s (List.range' 1 49) m0 0)

/-! ## Spec-side search (for the refinement claim)

Modelled from the spec: an unpruned full-width negamax search with the
same terminal values and the same leaf evaluation as `alpha_beta`. -/

/-- Modelled from the spec: full-width negamax value of a node. -/
def negamaxSpec (ai_color : Cell) : Nat → GameState → Int
  | depth, s =>
    if (is_terminal s).1 then termValue ai_color s depth
    else
      match depth with
      | 0 => evaluate s ai_color
      | d + 1 =>
        ((generate_moves s).map fun mv =>
          -negamaxSpec ai_color d (make_move s mv)).foldl max (-INF)

/-- Modelled from the spec: the full-width negamax score of a root
search at the given depth (the maximum over the root moves of the
negated child values). -/
def negamaxRootSpec (ai_color : Cell) (s : GameState) (depth : Nat) : Int :=
  ((generate_moves s).map fun mv =>
    -negamaxSpec ai_color (depth - 1) (make_move s mv)).foldl max (-INF)

/-! ## Helper lemmas -/

theorem fin8_eq_fin8 {a b : Int} (ha : 0 ≤ a) (ha8 : a < 8) (hb : 0 ≤ b) (hb8 : b < 8) :
    fin8 a = fin8 b ↔ a = b := by
  simp only [fin8, Fin.mk.injEq]
  rw [Int.emod_eq_of_lt ha ha8, Int.emod_eq_of_lt hb hb8]
  omega

theorem bset_same {bd : Board} {c r : Int} {p : Cell} :
    bget (bset bd c r p) c r = p := by
  simp [bget, bset]

theorem bset_other {bd : Board} {c r c2 r2 : Int} {p : Cell}
    (h : ¬(fin8 r2 = fin8 r ∧ fin8 c2 = fin8 c)) :
    bget (bset bd c r p) c2 r2 = bget bd c2 r2 := by
  simp only [bget, bset]
  rw [if_neg h]

/-! ## C2: the make_move contract -/

/-- C2: `make_move` returns a new position in which the moved pawn is
relocated from source to destination, any en-passant-captured pawn is
removed from the cell level with the mover, the en-passant target is set
to the intermediate cell exactly for a double-step move and cleared
otherwise, the side to move is flipped, and the move is appended to the
log, while every other board cell is unchanged — for every position and
every move within board bounds.  (The receiver itself is unchanged by
construction: the embedding, like `GameState.copy` in the source, is a
pure function of the receiver's value.) -/
theorem make_move_contract (s : GameState) (fc fr tc tr : Int)
    (hfc : 0 ≤ fc ∧ fc < 8) (hfr : 0 ≤ fr ∧ fr < 8)
    (htc : 0 ≤ tc ∧ tc < 8) (htr : 0 ≤ tr ∧ tr < 8) :
    bget (make_move s (fc, fr, tc, tr)).board tc tr = bget s.board fc fr ∧
    ((fc, fr) ≠ (tc, tr) → bget (make_move s (fc, fr, tc, tr)).board fc fr = Cell.E) ∧
    (s.en_passant_target = some (tc, tr) → fr ≠ tr →
      bget (make_move s (fc, fr, tc, tr)).board tc fr = Cell.E) ∧
    (∀ c r : Int, 0 ≤ c → c < 8 → 0 ≤ r → r < 8 →
      (c, r) ≠ (fc, fr) → (c, r) ≠ (tc, tr) →
      (s.en_passant_target = some (tc, tr) → (c, r) ≠ (tc, fr)) →
      bget (make_move s (fc, fr, tc, tr)).board c r = bget s.board c r) ∧
    (make_move s (fc, fr, tc, tr)).en_passant_target =
      (if (tr - fr).natAbs = 2 then some (tc, (fr + tr).fdiv 2) else none) ∧
    (make_move s (fc, fr, tc, tr)).current_player = flip_color s.current_player ∧
    (make_move s (fc, fr, tc, tr)).move_history = s.move_history ++ [(fc, fr, tc, tr)] := by
  obtain ⟨hfc0, hfc8⟩ := hfc
  obtain ⟨hfr0, hfr8⟩ := hfr
  obtain ⟨htc0, htc8⟩ := htc
  obtain ⟨htr0, htr8⟩ := htr
  refine ⟨?_, ?_, ?_, ?_, ?_, ?_, ?_⟩
  · -- destination holds the piece that was at the source
    simp only [make_move]
    exact bset_same
  · -- the source cell is emptied (unless it is the destination)
    intro hne
    simp only [make_move]
    rw [bset_other, bset_same]
    intro ⟨h1, h2⟩
    rw [fin8_eq_fin8 hfr0 hfr8 htr0 htr8] at h1
    rw [fin8_eq_fin8 hfc0 hfc8 htc0 htc8] at h2
    exact hne (by simp [h1, h2])
  · -- the en-passant-captured pawn is removed from the mover's rank
    intro hep hrow
    simp only [make_move, hep, if_true, reduceIte]
    rw [bset_other (c := tc) (r := tr)]
    · by_cases hcc : fin8 tc = fin8 fc
      · simp [bget, bset, hcc]
      · rw [bset_other, bset_same]
        intro ⟨_, h2⟩
        exact hcc h2
    · intro ⟨h1, _⟩
      rw [fin8_eq_fin8 hfr0 hfr8 htr0 htr8] at h1
      exact hrow h1
  · -- frame: every other cell is unchanged
    intro c r hc0 hc8 hr0 hr8 hne1 hne2 hne3
    simp only [make_move]
    rw [bset_other, bset_other]
    · by_cases hep : s.en_passant_target = some (tc, tr)
      · rw [if_pos hep, bset_other]
        intro ⟨h1, h2⟩
        rw [fin8_eq_fin8 hr0 hr8 hfr0 hfr8] at h1
        rw [fin8_eq_fin8 hc0 hc8 htc0 htc8] at h2
        exact hne3 hep (by simp [h1, h2])
      · rw [if_neg hep]
    · intro ⟨h1, h2⟩
      rw [fin8_eq_fin8 hr0 hr8 hfr0 hfr8] at h1
      rw [fin8_eq_fin8 hc0 hc8 hfc0 hfc8] at h2
      exact hne1 (by simp [h1, h2])
    · intro ⟨h1, h2⟩
      rw [fin8_eq_fin8 hr0 hr8 htr0 htr8] at h1
      rw [fin8_eq_fin8 hc0 hc8 htc0 htc8] at h2
      exact hne2 (by simp [h1, h2])
  · simp [make_move]
  · simp [make_move]
  · simp [make_move]

/-- Witness for C2: the contract applied to the double step e2e4 from
the initial position. -/
theorem make_move_contract_witness :
    bget (make_move initialState (4, 1, 4, 3)).board 4 3 = bget initialState.board 4 1 ∧
    ((4, 1) ≠ ((4, 3) : Int × Int) →
      bget (make_move initialState (4, 1, 4, 3)).board 4 1 = Cell.E) ∧
    (initialState.en_passant_target = some (4, 3) → (1 : Int) ≠ 3 →
      bget (make_move initialState (4, 1, 4, 3)).board 4 1 = Cell.E) ∧
    (∀ c r : Int, 0 ≤ c → c < 8 → 0 ≤ r → r < 8 →
      (c, r) ≠ ((4, 1) : Int × Int) → (c, r) ≠ ((4, 3) : Int × Int) →
      (initialState.en_passant_target = some (4, 3) → (c, r) ≠ ((4, 1) : Int × Int)) →
      bget (make_move initialState (4, 1, 4, 3)).board c r = bget initialState.board c r) ∧
    (make_move initialState (4, 1, 4, 3)).en_passant_target =
      (if ((3 : Int) - 1).natAbs = 2 then some (4, ((1 : Int) + 3).fdiv 2) else none) ∧
    (make_move initialState (4, 1, 4, 3)).current_player = flip_color initialState.current_player ∧
    (make_move initialState (4, 1, 4, 3)).move_history =
      initialState.move_history ++ [(4, 1, 4, 3)] :=
  make_move_contract initialState 4 1 4 3 (by decide) (by decide) (by decide) (by decide)

/-! ## C3: terminal detection order -/

/-- A position with a white pawn on rank 8 (file h) and a black pawn on
rank 1 (file a). -/
def c3State : GameState :=
  { board := bset (bset emptyBoard 7 7 Cell.W) 0 0 Cell.B
    current_player := Cell.W
    en_passant_target := none
    move_history := [] }

/-- C3 counterexample: a position holding both a white pawn on rank 8
and a black pawn on rank 1 for which `is_terminal` reports BLACK, not
WHITE: the two promotion checks are interleaved column by column, so the
black pawn on file a is found before the white pawn on file h. -/
theorem is_terminal_both_flags_black :
    bget c3State.board 7 7 = Cell.W ∧
    bget c3State.board 0 0 = Cell.B ∧
    is_terminal c3State = (true, some Cell.B) ∧
    is_terminal c3State ≠ (true, some Cell.W) := by
  refine ⟨by decide, by decide, by decide, by decide⟩

/-- C3 amended: the detector scans files a–h in order, checking at each
file first white-on-rank-8 and then black-on-rank-1, and the first match
wins; in particular a white pawn on rank 8 at file `f` wins whenever no
black pawn stands on rank 1 at any file ≤ `f`. -/
theorem endScan_W_aux (s : GameState) (f : Fin 8) (hW : s.board (7 : Fin 8) f = Cell.W) :
    ∀ l : List (Fin 8), l.Sorted (· ≤ ·) → f ∈ l →
      (∀ c ∈ l, c ≤ f → s.board (0 : Fin 8) c ≠ Cell.B) →
      endScan s l = some Cell.W := by
  intro l
  induction l with
  | nil => intro _ h; cases h
  | cons c rest ih =>
    intro hsort hmem hB
    by_cases hc : s.board (7 : Fin 8) c = Cell.W
    · simp [endScan, hc]
    · have hcf : f ≠ c := fun h => hc (h ▸ hW)
      have hfrest : f ∈ rest := by
        rcases List.mem_cons.mp hmem with h | h
        · exact absurd h hcf
        · exact h
      have hclef : c ≤ f := (List.sorted_cons.mp hsort).1 f hfrest
      have hcB : s.board (0 : Fin 8) c ≠ Cell.B := hB c (List.mem_cons_self _ _) hclef
      simp only [endScan, if_neg hc, if_neg hcB]
      exact ih (List.sorted_cons.mp hsort).2 hfrest
        (fun x hx hxf => hB x (List.mem_cons_of_mem _ hx) hxf)

theorem is_terminal_white_first_match (s : GameState) (f : Fin 8)
    (hW : s.board (7 : Fin 8) f = Cell.W)
    (hB : ∀ c : Fin 8, c ≤ f → s.board (0 : Fin 8) c ≠ Cell.B) :
    is_terminal s = (true, some Cell.W) := by
  have hsorted : (List.finRange 8).Sorted (· ≤ ·) := by decide
  have hscan : endScan s (List.finRange 8) = some Cell.W :=
    endScan_W_aux s f hW (List.finRange 8) hsorted (List.mem_finRange f)
      (fun c _ hcf => hB c hcf)
  simp only [is_terminal, hscan]

/-- Witness for C3: a lone white pawn promoted on a8 with black pawns
still in play is reported as a white win. -/
theorem is_terminal_white_first_match_witness :
    is_terminal
      { board := bset (bset emptyBoard 0 7 Cell.W) 4 4 Cell.B
        current_player := Cell.B
        en_passant_target := none
        move_history := [] } = (true, some Cell.W) :=
  is_terminal_white_first_match _ 0 (by decide) (by decide)

deriving instance DecidableEq for Except

/-! ## C9: move string round trip -/

theorem fileChar_facts (i : Int) (h0 : 0 ≤ i) (h8 : i < 8) :
    ((Char.ofNat (97 + i.toNat)).toNat : Int) - 97 = i ∧
    (Char.ofNat (97 + i.toNat)).isLower = true := by
  interval_cases i <;> exact ⟨by decide, by decide⟩

theorem rankChar_facts (i : Int) (h0 : 0 ≤ i) (h8 : i < 8) :
    (toString (i + 1)).toList = [Char.ofNat (48 + (i.toNat + 1))] ∧
    (Char.ofNat (48 + (i.toNat + 1))).isDigit = true ∧
    (((Char.ofNat (48 + (i.toNat + 1))).toNat : Int) - 48) - 1 = i := by
  interval_cases i <;> exact ⟨by decide, by decide, by decide⟩

/-- C9: for every move whose four coordinates are in `[0,7]`,
`string_to_move (move_to_string m)` recovers exactly `m`, and
`move_to_string m` is a string of exactly 4 characters, each of which is
a lowercase letter or a digit (never an uppercase character). -/
theorem move_string_roundtrip (fc fr tc tr : Int)
    (hfc : 0 ≤ fc ∧ fc < 8) (hfr : 0 ≤ fr ∧ fr < 8)
    (htc : 0 ≤ tc ∧ tc < 8) (htr : 0 ≤ tr ∧ tr < 8) :
    string_to_move (move_to_string (fc, fr, tc, tr)) = Except.ok (some (fc, fr, tc, tr)) ∧
    (move_to_string (fc, fr, tc, tr)).length = 4 ∧
    ∀ c ∈ move_to_string (fc, fr, tc, tr), c.isLower = true ∨ c.isDigit = true := by
  obtain ⟨hf1, hf2⟩ := fileChar_facts fc hfc.1 hfc.2
  obtain ⟨ht1, ht2⟩ := fileChar_facts tc htc.1 htc.2
  obtain ⟨hr1, hr2, hr3⟩ := rankChar_facts fr hfr.1 hfr.2
  obtain ⟨hs1, hs2, hs3⟩ := rankChar_facts tr htr.1 htr.2
  have hlist : move_to_string (fc, fr, tc, tr) =
      [Char.ofNat (97 + fc.toNat), Char.ofNat (48 + (fr.toNat + 1)),
        Char.ofNat (97 + tc.toNat), Char.ofNat (48 + (tr.toNat + 1))] := by
    simp only [move_to_string, hr1, hs1]
    rfl
  refine ⟨?_, ?_, ?_⟩
  · rw [hlist]
    simp only [string_to_move, hr2, hs2, if_true]
    rw [hf1, ht1, hr3, hs3]
  · rw [hlist]
    rfl
  · rw [hlist]
    intro c hc
    simp only [List.mem_cons, List.not_mem_nil, or_false] at hc
    rcases hc with rfl | rfl | rfl | rfl
    · exact Or.inl hf2
    · exact Or.inr hr2
    · exact Or.inl ht2
    · exact Or.inr hs2

/-- Witness for C9: the round trip at the concrete move e2e4. -/
theorem move_string_roundtrip_witness :
    string_to_move (move_to_string (4, 1, 4, 3)) = Except.ok (some (4, 1, 4, 3)) ∧
    (move_to_string (4, 1, 4, 3)).length = 4 ∧
    ∀ c ∈ move_to_string ((4 : Int), (1 : Int), (4 : Int), (3 : Int)),
      c.isLower = true ∨ c.isDigit = true :=
  move_string_roundtrip 4 1 4 3 (by decide) (by decide) (by decide) (by decide)

/-! ## C8: parse failures of string_to_move -/

/-- C8 counterexample: the string a9a9 is not a syntactically valid move
(rank 9 is outside 1–8) yet `string_to_move` returns a move tuple, not a
parse failure, and exe4 makes `int(...)` raise (a failure of another
kind) rather than producing the `None` parse failure. -/
theorem string_to_move_invalid_not_failure :
    string_to_move ('a' :: '9' :: 'a' :: '9' :: []) = Except.ok (some (0, 8, 0, 8)) ∧
    string_to_move ('a' :: '9' :: 'a' :: '9' :: []) ≠ Except.ok none ∧
    string_to_move ('e' :: 'x' :: 'e' :: '4' :: []) = Except.error () := by
  refine ⟨by decide, by decide, by decide⟩

/-- C8 amended: `string_to_move` yields the `None` parse failure exactly
for strings shorter than 4 characters; a string of length ≥ 4 yields a
(possibly out-of-range) move tuple exactly when both rank characters are
digits, with no validation of files or ranks, and raises an error
otherwise. -/
theorem string_to_move_parse_behavior (cs : List Char) :
    (string_to_move cs = Except.ok none ↔ cs.length < 4) ∧
    (4 ≤ cs.length →
      ((∃ m : Move, string_to_move cs = Except.ok (some m)) ↔
        (∃ d1 d3, cs[1]? = some d1 ∧ cs[3]? = some d3 ∧
          d1.isDigit = true ∧ d3.isDigit = true))) := by
  match cs with
  | [] => exact ⟨by simp [string_to_move], by intro h; simp at h⟩
  | [c0] => exact ⟨by simp [string_to_move], by intro h; simp at h⟩
  | [c0, c1] => exact ⟨by simp [string_to_move], by intro h; simp at h⟩
  | [c0, c1, c2] => exact ⟨by simp [string_to_move], by intro h; simp at h⟩
  | c0 :: c1 :: c2 :: c3 :: rest =>
    constructor
    · constructor
      · intro h
        by_cases hd1 : c1.isDigit <;> by_cases hd3 : c3.isDigit <;>
          simp [string_to_move, hd1, hd3] at h
      · intro h
        simp at h
        omega
    · intro _
      by_cases hd1 : c1.isDigit <;> by_cases hd3 : c3.isDigit <;>
        simp [string_to_move, hd1, hd3]

/-- Witness for C8 amended: concrete behavior on a valid move string, a
short string, and a non-digit rank. -/
theorem string_to_move_parse_behavior_witness :
    (string_to_move ('e' :: '2' :: 'e' :: '4' :: []) = Except.ok none ↔
      ('e' :: '2' :: 'e' :: '4' :: []).length < 4) ∧
    (4 ≤ ('e' :: '2' :: 'e' :: '4' :: []).length →
      ((∃ m : Move, string_to_move ('e' :: '2' :: 'e' :: '4' :: []) = Except.ok (some m)) ↔
        (∃ d1 d3, ('e' :: '2' :: 'e' :: '4' :: [])[1]? = some d1 ∧
          ('e' :: '2' :: 'e' :: '4' :: [])[3]? = some d3 ∧
          d1.isDigit = true ∧ d3.isDigit = true))) :=
  string_to_move_parse_behavior ('e' :: '2' :: 'e' :: '4' :: [])

/-! ## C7: position setup from tokens -/

/-- The file characters a–h. -/
def fileChars : List Char := ['a', 'b', 'c', 'd', 'e', 'f', 'g', 'h']

/-- The rank characters 1–8. -/
def rankChars : List Char := ['1', '2', '3', '4', '5', '6', '7', '8']

/-- A well-formed setup token per the spec: `<color><file><rank>` with
color in `{W, B}`, file in a–h, rank in 1–8. -/
def goodToken (t : List Char) : Prop :=
  ∃ c0 c1 c2, t = [c0, c1, c2] ∧ (c0 = 'W' ∨ c0 = 'B') ∧ c1 ∈ fileChars ∧ c2 ∈ rankChars

/-- The column a token names. -/
def tokenCol (t : List Char) : Fin 8 :=
  match t with
  | _ :: c1 :: _ => fin8 ((c1.toNat : Int) - 97)
  | _ => 0

/-- The row a token names. -/
def tokenRow (t : List Char) : Fin 8 :=
  match t with
  | _ :: _ :: c2 :: _ => fin8 (((c2.toNat : Int) - 48) - 1)
  | _ => 0

/-- The cell a token stores. -/
def tokenColor (t : List Char) : Cell :=
  match t with
  | c0 :: _ => toCell c0
  | _ => Cell.E

/-- Pure board update performed for one accepted token. -/
def place (bd : Board) (t : List Char) : Board :=
  match t with
  | c0 :: c1 :: c2 :: _ =>
    bset bd ((c1.toNat : Int) - 97) (((c2.toNat : Int) - 48) - 1) (toCell c0)
  | _ => bd

/-- The board described by a token list, later tokens overwriting
earlier ones on the same cell. -/
def specBoard (ts : List (List Char)) (r c : Fin 8) : Cell :=
  match ts.reverse.find? (fun t => decide (tokenRow t = r ∧ tokenCol t = c)) with
  | some t => tokenColor t
  | none => Cell.E

/-- C7 counterexample: the malformed token Xb4 (color not in `{W,B}`)
is not ignored — its first character is written to cell b4 — and the
malformed token Wbx (non-digit rank) makes the whole operation fail
rather than complete. -/
theorem setup_malformed_not_ignored :
    (setup_from_string [['X', 'b', '4']]).toOption.map (fun b => bget b 1 3) =
      some (Cell.X 'X') ∧
    Cell.X 'X' ≠ Cell.E ∧ Cell.X 'X' ≠ Cell.W ∧ Cell.X 'X' ≠ Cell.B ∧
    setup_from_string [['W', 'b', 'x']] = Except.error () := by
  refine ⟨by decide, by decide, by decide, by decide, by decide⟩

theorem file_char_range {c1 : Char} (h : c1 ∈ fileChars) :
    0 ≤ (c1.toNat : Int) - 97 ∧ (c1.toNat : Int) - 97 < 8 := by
  fin_cases h <;> exact ⟨by decide, by decide⟩

theorem rank_char_range {c2 : Char} (h : c2 ∈ rankChars) :
    c2.isDigit = true ∧ 0 ≤ ((c2.toNat : Int) - 48) - 1 ∧ ((c2.toNat : Int) - 48) - 1 < 8 := by
  fin_cases h <;> exact ⟨by decide, by decide, by decide⟩

theorem setupStep_good {bd : Board} {t : List Char} (h : goodToken t) :
    setupStep bd t = Except.ok (place bd t) := by
  obtain ⟨c0, c1, c2, rfl, _, hc1, hc2⟩ := h
  obtain ⟨hd, _, _⟩ := rank_char_range hc2
  obtain ⟨hf0, hf8⟩ := file_char_range hc1
  obtain ⟨_, hr0, hr8⟩ := rank_char_range hc2
  simp only [setupStep, hd, if_true, place]
  rw [if_pos ⟨hf0, hf8, hr0, hr8⟩]
  rfl

theorem setup_foldlM_good : ∀ (ts : List (List Char)) (bd0 : Board),
    (∀ t ∈ ts, goodToken t) →
    List.foldlM setupStep bd0 ts = Except.ok (ts.foldl place bd0) := by
  intro ts
  induction ts with
  | nil => intro bd0 _; rfl
  | cons t rest ih =>
    intro bd0 hgood
    rw [List.foldlM_cons, setupStep_good (hgood t (List.mem_cons_self _ _))]
    show List.foldlM setupStep (place bd0 t) rest = Except.ok ((t :: rest).foldl place bd0)
    rw [List.foldl_cons]
    exact ih (place bd0 t) (fun x hx => hgood x (List.mem_cons_of_mem _ hx))

theorem place_at_target {bd : Board} {c0 c1 c2 : Char} {tl : List Char} :
    place bd (c0 :: c1 :: c2 :: tl) (tokenRow (c0 :: c1 :: c2 :: tl))
      (tokenCol (c0 :: c1 :: c2 :: tl)) = toCell c0 := by
  simp [place, bset, tokenRow, tokenCol]

theorem place_off_target {bd : Board} {c0 c1 c2 : Char} {tl : List Char} {r c : Fin 8}
    (h : ¬(tokenRow (c0 :: c1 :: c2 :: tl) = r ∧ tokenCol (c0 :: c1 :: c2 :: tl) = c)) :
    place bd (c0 :: c1 :: c2 :: tl) r c = bd r c := by
  simp only [place, bset]
  rw [if_neg]
  intro ⟨h1, h2⟩
  exact h ⟨h1.symm, h2.symm⟩

theorem foldl_place_spec : ∀ (ts : List (List Char)) (bd0 : Board) (r c : Fin 8),
    (∀ t ∈ ts, goodToken t) →
    (ts.foldl place bd0) r c =
      (match ts.reverse.find? (fun t => decide (tokenRow t = r ∧ tokenCol t = c)) with
        | some t => tokenColor t
        | none => bd0 r c) := by
  intro ts
  induction ts using List.reverseRecOn with
  | nil => intro bd0 r c _; rfl
  | append_singleton rest t ih =>
    intro bd0 r c hgood
    obtain ⟨c0, c1, c2, hshape, _, _, _⟩ :=
      hgood t (List.mem_append_right rest (List.mem_singleton.mpr rfl))
    rw [List.foldl_append, List.foldl_cons, List.foldl_nil, List.reverse_append]
    simp only [List.reverse_singleton, List.singleton_append, List.find?_cons]
    by_cases htarget : tokenRow t = r ∧ tokenCol t = c
    · rw [decide_eq_true htarget]
      obtain ⟨hr, hc⟩ := htarget
      subst hshape
      rw [← hr, ← hc, place_at_target]
      rfl
    · rw [decide_eq_false htarget]
      rw [← ih bd0 r c (fun x hx => hgood x (List.mem_append_left _ hx))]
      subst hshape
      exact place_off_target htarget

/-- C7 amended: malformed tokens are not ignored in general (a color
outside `{W,B}` is written verbatim and a non-digit rank aborts the
operation), but for every nonempty sequence of well-formed tokens
`<color><file><rank>` the operation completes without failure and the
resulting board holds exactly the tokens' pawns — the last token naming a
cell decides it and every unnamed cell stays empty. -/
theorem setup_good_tokens (ts : List (List Char)) (hne : ts ≠ [])
    (hgood : ∀ t ∈ ts, goodToken t) :
    setup_from_string ts = Except.ok (fun r c => specBoard ts r c) := by
  match ts with
  | [] => exact absurd rfl hne
  | p0 :: rest =>
    have hp0 : ¬(p0 = "Setup".toList) := by
      obtain ⟨c0, c1, c2, hshape, _⟩ := hgood p0 (List.mem_cons_self _ _)
      intro h
      have h2 := congrArg List.length (h.symm.trans hshape)
      simp at h2
    simp only [setup_from_string, if_neg hp0]
    rw [setup_foldlM_good (p0 :: rest) emptyBoard hgood]
    congr 1
    funext r c
    rw [foldl_place_spec (p0 :: rest) emptyBoard r c hgood]
    rfl

/-- Witness for C7 amended: the board described by the two tokens Wb4
and Bg7. -/
theorem setup_good_tokens_witness :
    setup_from_string [['W', 'b', '4'], ['B', 'g', '7']] =
      Except.ok (fun r c => specBoard [['W', 'b', '4'], ['B', 'g', '7']] r c) :=
  setup_good_tokens [['W', 'b', '4'], ['B', 'g', '7']] (by decide)
    (by
      intro t ht
      simp only [List.mem_cons, List.not_mem_nil, or_false] at ht
      rcases ht with rfl | rfl
      · exact ⟨'W', 'b', '4', rfl, Or.inl rfl, by decide, by decide⟩
      · exact ⟨'B', 'g', '7', rfl, Or.inr rfl, by decide, by decide⟩)

/-! ## List sum helpers -/

theorem foldl_add_sum {α : Type} (f : α → Int) : ∀ (l : List α) (a : Int),
    l.foldl (fun acc x => acc + f x) a = a + (l.map f).sum := by
  intro l
  induction l with
  | nil => intro a; simp
  | cons x xs ih =>
    intro a
    rw [List.foldl_cons, ih, List.map_cons, List.sum_cons]
    ring

theorem foldl_sub_sum {α : Type} (f : α → Int) : ∀ (l : List α) (a : Int),
    l.foldl (fun acc x => acc - f x) a = a - (l.map f).sum := by
  intro l
  induction l with
  | nil => intro a; simp
  | cons x xs ih =>
    intro a
    rw [List.foldl_cons, ih, List.map_cons, List.sum_cons]
    ring

theorem sum_map_add3 {α : Type} (f g h : α → Int) (l : List α) :
    (l.map (fun x => f x + g x + h x)).sum =
      (l.map f).sum + (l.map g).sum + (l.map h).sum := by
  induction l with
  | nil => simp
  | cons x xs ih => simp only [List.map_cons, List.sum_cons, ih]; ring

theorem sum_map_ite {α : Type} (P : α → Prop) [DecidablePred P] (f : α → Int) (l : List α) :
    (l.map (fun x => if P x then f x else 0)).sum =
      ((l.filter (fun x => decide (P x))).map f).sum := by
  induction l with
  | nil => simp
  | cons x xs ih =>
    by_cases h : P x <;> simp [h, ih]

theorem sum_map_const_5 {α : Type} (l : List α) :
    (l.map (fun _ => (5 : Int))).sum = 5 * (l.length : Int) := by
  induction l with
  | nil => simp
  | cons x xs ih => simp [ih]; ring

/-! ## C5: the passed-pawn bonus -/

/-- Advancement of a pawn towards promotion, as the evaluator computes
it. -/
def advancementOf (color : Cell) (p : Int × Int) : Int :=
  if color = Cell.W then p.2 else 7 - p.2

/-- The per-perspective score asserted by the claim: for each passed
pawn, `passed_pawn_weight` plus `5 × advancement_weight ×` advancement
(that is, +50 per rank of advancement of a passed pawn). -/
def claimEval (s : GameState) (persp : Cell) : Int :=
  let opp := flip_color persp
  let my := get_all_pieces s persp
  let ops := get_all_pieces s opp
  material_weight * ((my.length : Int) - (ops.length : Int)) +
    advancement_weight * (my.map (advancementOf persp)).sum -
    advancement_weight * (ops.map (advancementOf opp)).sum +
    ((my.filter (fun p => decide (is_passed_pawn s p.1 p.2 persp = true))).map
      (fun p => passed_pawn_weight + 5 * advancement_weight * advancementOf persp p)).sum -
    ((ops.filter (fun p => decide (is_passed_pawn s p.1 p.2 opp = true))).map
      (fun p => passed_pawn_weight + 5 * advancement_weight * advancementOf opp p)).sum +
    center_weight * ((my.filter (fun p => decide (2 ≤ p.1 ∧ p.1 ≤ 5))).length : Int)

/-- The amended per-perspective score: for each passed pawn,
`passed_pawn_weight` plus `5 ×` advancement (a flat +5 per rank,
independent of `advancement_weight`). -/
def amendedEval (s : GameState) (persp : Cell) : Int :=
  let opp := flip_color persp
  let my := get_all_pieces s persp
  let ops := get_all_pieces s opp
  material_weight * ((my.length : Int) - (ops.length : Int)) +
    advancement_weight * (my.map (advancementOf persp)).sum -
    advancement_weight * (ops.map (advancementOf opp)).sum +
    ((my.filter (fun p => decide (is_passed_pawn s p.1 p.2 persp = true))).map
      (fun p => passed_pawn_weight + 5 * advancementOf persp p)).sum -
    ((ops.filter (fun p => decide (is_passed_pawn s p.1 p.2 opp = true))).map
      (fun p => passed_pawn_weight + 5 * advancementOf opp p)).sum +
    center_weight * ((my.filter (fun p => decide (2 ≤ p.1 ∧ p.1 ≤ 5))).length : Int)

/-- The position with a white pawn on a4 and a black pawn on h7, white
to move: both pawns are passed. -/
def c5State : GameState :=
  { board := bset (bset emptyBoard 0 3 Cell.W) 7 6 Cell.B
    current_player := Cell.W
    en_passant_target := none
    move_history := [] }

/-- C5 counterexample: on a concrete non-terminal position the evaluator
returns 30, but the claimed formula (+50 per rank of advancement of a
passed pawn) gives 120: the code adds `advancement * 5`, not
`5 × advancement_weight × advancement`. -/
theorem evaluate_passed_bonus_not_50 :
    (is_terminal c5State).1 = false ∧
    evaluate c5State Cell.W = 30 ∧
    claimEval c5State Cell.W = 120 ∧
    evaluate c5State Cell.W ≠ claimEval c5State Cell.W := by
  refine ⟨by decide, by decide, by decide, by decide⟩

theorem myPawnScore_eq (s : GameState) (color : Cell) (p : Int × Int) :
    myPawnScore s color p =
      advancementOf color p * advancement_weight +
        (if is_passed_pawn s p.1 p.2 color = true then
          passed_pawn_weight + advancementOf color p * 5 else 0) +
        (if 2 ≤ p.1 ∧ p.1 ≤ 5 then center_weight else 0) := rfl

theorem oppPawnScore_eq (s : GameState) (color : Cell) (p : Int × Int) :
    oppPawnScore s color p =
      advancementOf color p * advancement_weight +
        (if is_passed_pawn s p.1 p.2 color = true then
          passed_pawn_weight + advancementOf color p * 5 else 0) +
        0 := by
  simp only [oppPawnScore, advancementOf, passed_pawn_weight, advancement_weight, add_zero]

/-- C5 amended: for every non-terminal position and each perspective,
the evaluator adds, for each passed pawn of that perspective,
`passed_pawn_weight` plus 5 times that pawn's advancement (+5 per rank,
not +50), and subtracts the symmetric amount for each opponent passed
pawn, alongside the material, advancement and center terms. -/
theorem evaluate_eq_amended (s : GameState) (persp : Cell)
    (h : (is_terminal s).1 = false) :
    evaluate s persp = amendedEval s persp := by
  simp only [evaluate, h, Bool.false_eq_true, if_false]
  rw [foldl_add_sum (myPawnScore s persp), foldl_sub_sum (oppPawnScore s (flip_color persp))]
  have hmy : ((get_all_pieces s persp).map (myPawnScore s persp)).sum =
      advancement_weight * ((get_all_pieces s persp).map (advancementOf persp)).sum +
        (((get_all_pieces s persp).filter
            (fun p => decide (is_passed_pawn s p.1 p.2 persp = true))).map
          (fun p => passed_pawn_weight + 5 * advancementOf persp p)).sum +
        center_weight *
          (((get_all_pieces s persp).filter
            (fun p => decide (2 ≤ p.1 ∧ p.1 ≤ 5))).length : Int) := by
    have h1 : (get_all_pieces s persp).map (myPawnScore s persp) =
        (get_all_pieces s persp).map (fun p =>
          advancementOf persp p * advancement_weight +
            (if is_passed_pawn s p.1 p.2 persp = true then
              passed_pawn_weight + advancementOf persp p * 5 else 0) +
            (if 2 ≤ p.1 ∧ p.1 ≤ 5 then center_weight else 0)) :=
      List.map_congr_left (fun p _ => myPawnScore_eq s persp p)
    rw [h1, sum_map_add3]
    rw [sum_map_ite (fun p => is_passed_pawn s p.1 p.2 persp = true)
      (fun p => passed_pawn_weight + advancementOf persp p * 5)]
    rw [sum_map_ite (fun p : Int × Int => 2 ≤ p.1 ∧ p.1 ≤ 5) (fun _ => center_weight)
      (get_all_pieces s persp)]
    have h2 : ∀ l : List (Int × Int),
        (l.map (fun p => advancementOf persp p * advancement_weight)).sum =
          advancement_weight * (l.map (advancementOf persp)).sum := by
      intro l
      induction l with
      | nil => simp
      | cons x xs ih => simp only [List.map_cons, List.sum_cons, ih]; ring
    have h3 : ∀ l : List (Int × Int),
        (l.map (fun p => passed_pawn_weight + advancementOf persp p * 5)).sum =
          (l.map (fun p => passed_pawn_weight + 5 * advancementOf persp p)).sum := by
      intro l
      refine congrArg _ (List.map_congr_left fun p _ => by ring)
    rw [h2, h3]
    have h4 : (((get_all_pieces s persp).filter
          (fun p => decide (2 ≤ p.1 ∧ p.1 ≤ 5))).map (fun _ => center_weight)).sum =
        center_weight * (((get_all_pieces s persp).filter
          (fun p => decide (2 ≤ p.1 ∧ p.1 ≤ 5))).length : Int) :=
      sum_map_const_5 _
    rw [h4]
  have hopp : ((get_all_pieces s (flip_color persp)).map
        (oppPawnScore s (flip_color persp))).sum =
      advancement_weight *
          ((get_all_pieces s (flip_color persp)).map (advancementOf (flip_color persp))).sum +
        (((get_all_pieces s (flip_color persp)).filter
            (fun p => decide (is_passed_pawn s p.1 p.2 (flip_color persp) = true))).map
          (fun p => passed_pawn_weight + 5 * advancementOf (flip_color persp) p)).sum := by
    have h1 : (get_all_pieces s (flip_color persp)).map (oppPawnScore s (flip_color persp)) =
        (get_all_pieces s (flip_color persp)).map (fun p =>
          advancementOf (flip_color persp) p * advancement_weight +
            (if is_passed_pawn s p.1 p.2 (flip_color persp) = true then
              passed_pawn_weight + advancementOf (flip_color persp) p * 5 else 0) +
            0) :=
      List.map_congr_left (fun p _ => oppPawnScore_eq s (flip_color persp) p)
    rw [h1, sum_map_add3]
    rw [sum_map_ite (fun p => is_passed_pawn s p.1 p.2 (flip_color persp) = true)
      (fun p => passed_pawn_weight + advancementOf (flip_color persp) p * 5)]
    have h2 : ∀ l : List (Int × Int),
        (l.map (fun p => advancementOf (flip_color persp) p * advancement_weight)).sum =
          advancement_weight * (l.map (advancementOf (flip_color persp))).sum := by
      intro l
      induction l with
      | nil => simp
      | cons x xs ih => simp only [List.map_cons, List.sum_cons, ih]; ring
    have h3 : ∀ l : List (Int × Int),
        (l.map (fun p => passed_pawn_weight + advancementOf (flip_color persp) p * 5)).sum =
          (l.map (fun p => passed_pawn_weight + 5 * advancementOf (flip_color persp) p)).sum := by
      intro l
      refine congrArg _ (List.map_congr_left fun p _ => by ring)
    rw [h2, h3]
    simp
  rw [hmy, hopp]
  simp only [amendedEval]
  ring

/-- Witness for C5 amended: the amended formula evaluated at the
concrete position `c5State`. -/
theorem evaluate_eq_amended_witness :
    (is_terminal c5State).1 = false ∧ evaluate c5State Cell.W = amendedEval c5State Cell.W :=
  ⟨by decide, evaluate_eq_amended c5State Cell.W (by decide)⟩

end TwoFlags

namespace TwoFlags

/-! ## C1: the depth-0 leaf value -/

/-- C1: at a non-terminal node with depth 0 the search returns the
static evaluation from the AI's fixed color, not from the side to move.
The position after the legal move e2e4 from the initial position is
reachable, Black is to move there, yet `alpha_beta` for a White AI
returns `evaluate(state, WHITE) = 40` while the evaluation from the
mover's (Black's) perspective is 0. -/
theorem alpha_beta_leaf_uses_ai_color :
    (4, 1, 4, 3) ∈ generate_moves initialState ∧
    (is_terminal (make_move initialState (4, 1, 4, 3))).1 = false ∧
    (make_move initialState (4, 1, 4, 3)).current_player = Cell.B ∧
    alphaBetaNT Cell.W 0 (make_move initialState (4, 1, 4, 3)) (-INF) INF false =
      evaluate (make_move initialState (4, 1, 4, 3)) Cell.W ∧
    evaluate (make_move initialState (4, 1, 4, 3)) Cell.W = 40 ∧
    evaluate (make_move initialState (4, 1, 4, 3)) Cell.B = 0 ∧
    alphaBetaNT Cell.W 0 (make_move initialState (4, 1, 4, 3)) (-INF) INF false ≠
      evaluate (make_move initialState (4, 1, 4, 3)) Cell.B := by
  refine ⟨by decide, by decide, by decide, by decide, by decide, by decide, by decide⟩

end TwoFlags

namespace TwoFlags

/-! ## C10: the heuristic score never reaches the terminal range -/

theorem sum_map_flatMap {α β : Type} (l : List α) (f : α → List β) (g : β → Int) :
    ((l.flatMap f).map g).sum = (l.map (fun x => ((f x).map g).sum)).sum := by
  induction l with
  | nil => rfl
  | cons x xs ih =>
    simp only [List.flatMap_cons, List.map_append, List.sum_append, List.map_cons,
      List.sum_cons, ih]

theorem sum_filterMap_ite {α β : Type} (l : List α) (P : α → Prop) [DecidablePred P]
    (h : α → β) (g : β → Int) :
    ((l.filterMap (fun x => if P x then some (h x) else none)).map g).sum =
      (l.map (fun x => if P x then g (h x) else 0)).sum := by
  induction l with
  | nil => rfl
  | cons x xs ih =>
    by_cases hx : P x <;> simp [hx, ih]

theorem sum_map_const_add {α : Type} (c0 : Int) (f : α → Int) (l : List α) :
    (l.map (fun x => c0 + f x)).sum = c0 * (l.length : Int) + (l.map f).sum := by
  induction l with
  | nil => simp
  | cons x xs ih => simp only [List.map_cons, List.sum_cons, List.length_cons, ih]; push_cast; ring

theorem mem_get_all_pieces {s : GameState} {color : Cell} {p : Int × Int}
    (hp : p ∈ get_all_pieces s color) :
    ∃ (r c : Fin 8), p = (((c : Nat) : Int), ((r : Nat) : Int)) ∧ s.board r c = color := by
  simp only [get_all_pieces, List.mem_flatMap, List.mem_filterMap] at hp
  obtain ⟨r, _, c, _, hc⟩ := hp
  by_cases hb : s.board r c = color
  · rw [if_pos hb] at hc
    exact ⟨r, c, (Option.some_injective _ hc).symm, hb⟩
  · rw [if_neg hb] at hc
    cases hc

theorem pieces_sum_le (s : GameState) (color : Cell) (g : Int × Int → Int)
    (cap : Fin 8 → Fin 8 → Int)
    (hcap0 : ∀ r c : Fin 8, 0 ≤ cap r c)
    (hcap : ∀ r c : Fin 8, s.board r c = color →
      g (((c : Nat) : Int), ((r : Nat) : Int)) ≤ cap r c) :
    ((get_all_pieces s color).map g).sum ≤
      ((List.finRange 8).map (fun r => ((List.finRange 8).map (fun c => cap r c)).sum)).sum := by
  unfold get_all_pieces
  rw [sum_map_flatMap]
  refine List.sum_le_sum ?_
  intro r _
  rw [sum_filterMap_ite (List.finRange 8) (fun c => s.board r c = color)
    (fun c => (((c : Nat) : Int), ((r : Nat) : Int))) g]
  refine List.sum_le_sum ?_
  intro c _
  by_cases hb : s.board r c = color
  · rw [if_pos hb]; exact hcap r c hb
  · rw [if_neg hb]; exact hcap0 r c

theorem pieces_sum_nonneg (s : GameState) (color : Cell) (g : Int × Int → Int)
    (hg : ∀ r c : Fin 8, s.board r c = color →
      0 ≤ g (((c : Nat) : Int), ((r : Nat) : Int))) :
    0 ≤ ((get_all_pieces s color).map g).sum := by
  refine List.sum_nonneg ?_
  intro x hx
  simp only [List.mem_map] at hx
  obtain ⟨p, hp, rfl⟩ := hx
  obtain ⟨r, c, rfl, hb⟩ := mem_get_all_pieces hp
  exact hg r c hb

theorem endScan_none_facts (s : GameState) : ∀ l : List (Fin 8), endScan s l = none →
    ∀ c ∈ l, s.board (7 : Fin 8) c ≠ Cell.W ∧ s.board (0 : Fin 8) c ≠ Cell.B := by
  intro l
  induction l with
  | nil => intro _ c hc; cases hc
  | cons x xs ih =>
    intro h c hc
    by_cases h1 : s.board (7 : Fin 8) x = Cell.W
    · simp [endScan, h1] at h
    · by_cases h2 : s.board (0 : Fin 8) x = Cell.B
      · simp [endScan, h1, h2] at h
      · simp only [endScan, if_neg h1, if_neg h2] at h
        rcases List.mem_cons.mp hc with rfl | hc2
        · exact ⟨h1, h2⟩
        · exact ih h c hc2

theorem nonterminal_facts (s : GameState) (h : (is_terminal s).1 = false) :
    (∀ c : Fin 8, s.board (7 : Fin 8) c ≠ Cell.W ∧ s.board (0 : Fin 8) c ≠ Cell.B) ∧
    1 ≤ ((get_all_pieces s Cell.W).length : Int) ∧
    1 ≤ ((get_all_pieces s Cell.B).length : Int) ∧
    generate_moves s ≠ [] := by
  unfold is_terminal at h
  cases hscan : endScan s (List.finRange 8) with
  | some w => rw [hscan] at h; simp at h
  | none =>
    rw [hscan] at h
    simp only at h
    split_ifs at h with h1 h2 h3
    exact ⟨fun c => endScan_none_facts s _ hscan c (List.mem_finRange c),
      by omega, by omega, h3⟩

end TwoFlags

namespace TwoFlags

/-- A non-terminal position with 24 white pawns (rows 2–4) and one black
pawn on a8. -/
def c10State : GameState :=
  { board := fun r c =>
      if r = (1 : Fin 8) ∨ r = (2 : Fin 8) ∨ r = (3 : Fin 8) then Cell.W
      else if r = (7 : Fin 8) ∧ c = (0 : Fin 8) then Cell.B else Cell.E
    current_player := Cell.W
    en_passant_target := none
    move_history := [] }

/-- C10 counterexample: the claimed numeric bound "at most 1920" fails
for non-terminal positions with more than 8 pawns per side — here the
evaluation is 3560. -/
theorem evaluate_exceeds_1920 :
    (is_terminal c10State).1 = false ∧
    evaluate c10State Cell.W = 3560 ∧
    ¬(evaluate c10State Cell.W ≤ 1920) := by
  refine ⟨by decide, by decide, by decide⟩

theorem myPawnScore_sum_nonneg (s : GameState) (color : Cell) :
    0 ≤ ((get_all_pieces s color).map (myPawnScore s color)).sum := by
  refine pieces_sum_nonneg s color _ ?_
  intro r c _
  have hr8 : (r : Nat) < 8 := r.isLt
  dsimp only [myPawnScore, passed_pawn_weight, advancement_weight, center_weight]
  split_ifs <;> omega

theorem oppPawnScore_sum_nonneg (s : GameState) (color : Cell) :
    0 ≤ ((get_all_pieces s color).map (oppPawnScore s color)).sum := by
  refine pieces_sum_nonneg s color _ ?_
  intro r c _
  have hr8 : (r : Nat) < 8 := r.isLt
  dsimp only [oppPawnScore, passed_pawn_weight, advancement_weight]
  split_ifs <;> omega

theorem my_cap_W (s : GameState)
    (hF1 : ∀ c : Fin 8, s.board (7 : Fin 8) c ≠ Cell.W) :
    ((get_all_pieces s Cell.W).map (fun q => 100 + myPawnScore s Cell.W q)).sum ≤ 9940 := by
  have hle := pieces_sum_le s Cell.W (fun q => 100 + myPawnScore s Cell.W q)
    (fun r c => if r = (7 : Fin 8) then 0 else
      130 + 15 * ((r : Nat) : Int) +
        (if 2 ≤ ((c : Nat) : Int) ∧ ((c : Nat) : Int) ≤ 5 then 5 else 0))
    (by
      intro r c
      dsimp only
      split_ifs <;> omega)
    (by
      intro r c hb
      dsimp only
      by_cases hr : r = (7 : Fin 8)
      · subst hr; exact absurd hb (hF1 c)
      · rw [if_neg hr]
        have hr8 : (r : Nat) < 8 := r.isLt
        have hr7 : (r : Nat) ≠ 7 := fun hh => hr (Fin.ext hh)
        dsimp only [myPawnScore, passed_pawn_weight, advancement_weight, center_weight]
        split_ifs <;> first | omega | simp_all)
  calc ((get_all_pieces s Cell.W).map (fun q => 100 + myPawnScore s Cell.W q)).sum
      ≤ _ := hle
    _ = 9940 := by decide

theorem my_cap_B (s : GameState)
    (hF1 : ∀ c : Fin 8, s.board (0 : Fin 8) c ≠ Cell.B) :
    ((get_all_pieces s Cell.B).map (fun q => 100 + myPawnScore s Cell.B q)).sum ≤ 9940 := by
  have hle := pieces_sum_le s Cell.B (fun q => 100 + myPawnScore s Cell.B q)
    (fun r c => if r = (0 : Fin 8) then 0 else
      130 + 15 * (7 - ((r : Nat) : Int)) +
        (if 2 ≤ ((c : Nat) : Int) ∧ ((c : Nat) : Int) ≤ 5 then 5 else 0))
    (by
      intro r c
      have hr8 : (r : Nat) < 8 := r.isLt
      dsimp only
      split_ifs <;> omega)
    (by
      intro r c hb
      dsimp only
      by_cases hr : r = (0 : Fin 8)
      · subst hr; exact absurd hb (hF1 c)
      · rw [if_neg hr]
        have hr8 : (r : Nat) < 8 := r.isLt
        have hr0 : (r : Nat) ≠ 0 := fun hh => hr (Fin.ext hh)
        dsimp only [myPawnScore, passed_pawn_weight, advancement_weight, center_weight]
        split_ifs <;> first | omega | simp_all)
  calc ((get_all_pieces s Cell.B).map (fun q => 100 + myPawnScore s Cell.B q)).sum
      ≤ _ := hle
    _ = 9940 := by decide

theorem opp_cap_W (s : GameState)
    (hF1 : ∀ c : Fin 8, s.board (7 : Fin 8) c ≠ Cell.W) :
    ((get_all_pieces s Cell.W).map (fun q => 100 + oppPawnScore s Cell.W q)).sum ≤ 9800 := by
  have hle := pieces_sum_le s Cell.W (fun q => 100 + oppPawnScore s Cell.W q)
    (fun r c => if r = (7 : Fin 8) then 0 else 130 + 15 * ((r : Nat) : Int))
    (by
      intro r c
      dsimp only
      split_ifs <;> omega)
    (by
      intro r c hb
      dsimp only
      by_cases hr : r = (7 : Fin 8)
      · subst hr; exact absurd hb (hF1 c)
      · rw [if_neg hr]
        have hr8 : (r : Nat) < 8 := r.isLt
        have hr7 : (r : Nat) ≠ 7 := fun hh => hr (Fin.ext hh)
        dsimp only [oppPawnScore, passed_pawn_weight, advancement_weight]
        split_ifs <;> first | omega | simp_all)
  calc ((get_all_pieces s Cell.W).map (fun q => 100 + oppPawnScore s Cell.W q)).sum
      ≤ _ := hle
    _ = 9800 := by decide

theorem opp_cap_B (s : GameState)
    (hF1 : ∀ c : Fin 8, s.board (0 : Fin 8) c ≠ Cell.B) :
    ((get_all_pieces s Cell.B).map (fun q => 100 + oppPawnScore s Cell.B q)).sum ≤ 9800 := by
  have hle := pieces_sum_le s Cell.B (fun q => 100 + oppPawnScore s Cell.B q)
    (fun r c => if r = (0 : Fin 8) then 0 else 130 + 15 * (7 - ((r : Nat) : Int)))
    (by
      intro r c
      have hr8 : (r : Nat) < 8 := r.isLt
      dsimp only
      split_ifs <;> omega)
    (by
      intro r c hb
      dsimp only
      by_cases hr : r = (0 : Fin 8)
      · subst hr; exact absurd hb (hF1 c)
      · rw [if_neg hr]
        have hr8 : (r : Nat) < 8 := r.isLt
        have hr0 : (r : Nat) ≠ 0 := fun hh => hr (Fin.ext hh)
        dsimp only [oppPawnScore, passed_pawn_weight, advancement_weight]
        split_ifs <;> first | omega | simp_all)
  calc ((get_all_pieces s Cell.B).map (fun q => 100 + oppPawnScore s Cell.B q)).sum
      ≤ _ := hle
    _ = 9800 := by decide

/-- C10 amended: for every non-terminal position and either perspective
the evaluation lies strictly between `-(WIN_VALUE - 100)` and
`WIN_VALUE - 100` (indeed within `[-9700, 9840]`), so a heuristic score
can never equal a terminal score nor trigger the forced-win deepening
cutoff at `WIN_VALUE - 100`; the parenthetical bound 1920 of the claim
holds only for positions with at most 8 pawns per side. -/
theorem evaluate_abs_lt_win_margin (s : GameState) (p : Cell)
    (hp : p = Cell.W ∨ p = Cell.B) (h : (is_terminal s).1 = false) :
    -(WIN_VALUE - 100) < evaluate s p ∧ evaluate s p < WIN_VALUE - 100 := by
  obtain ⟨hF1, hlenW, hlenB, _⟩ := nonterminal_facts s h
  have heval : evaluate s p =
      (((get_all_pieces s p).length : Int) -
        ((get_all_pieces s (flip_color p)).length : Int)) * material_weight +
      ((get_all_pieces s p).map (myPawnScore s p)).sum -
      ((get_all_pieces s (flip_color p)).map (oppPawnScore s (flip_color p))).sum := by
    simp only [evaluate, h, Bool.false_eq_true, if_false]
    rw [foldl_add_sum (myPawnScore s p), foldl_sub_sum (oppPawnScore s (flip_color p))]
  rcases hp with rfl | rfl
  · have hflip : flip_color Cell.W = Cell.B := by decide
    rw [hflip] at heval
    have hmycap := my_cap_W s (fun c => (hF1 c).1)
    have hoppcap := opp_cap_B s (fun c => (hF1 c).2)
    have hmy0 := myPawnScore_sum_nonneg s Cell.W
    have hopp0 := oppPawnScore_sum_nonneg s Cell.B
    rw [sum_map_const_add 100 (myPawnScore s Cell.W) (get_all_pieces s Cell.W)] at hmycap
    rw [sum_map_const_add 100 (oppPawnScore s Cell.B) (get_all_pieces s Cell.B)] at hoppcap
    rw [heval]
    simp only [WIN_VALUE, material_weight]
    omega
  · have hflip : flip_color Cell.B = Cell.W := by decide
    rw [hflip] at heval
    have hmycap := my_cap_B s (fun c => (hF1 c).2)
    have hoppcap := opp_cap_W s (fun c => (hF1 c).1)
    have hmy0 := myPawnScore_sum_nonneg s Cell.B
    have hopp0 := oppPawnScore_sum_nonneg s Cell.W
    rw [sum_map_const_add 100 (myPawnScore s Cell.B) (get_all_pieces s Cell.B)] at hmycap
    rw [sum_map_const_add 100 (oppPawnScore s Cell.W) (get_all_pieces s Cell.W)] at hoppcap
    rw [heval]
    simp only [WIN_VALUE, material_weight]
    omega


/-- Witness for C10 amended: the bound instantiated at the initial
position from the White perspective. -/
theorem evaluate_abs_lt_win_margin_witness :
    -(WIN_VALUE - 100) < evaluate initialState Cell.W ∧
      evaluate initialState Cell.W < WIN_VALUE - 100 :=
  evaluate_abs_lt_win_margin initialState Cell.W (Or.inl rfl) (by decide)

end TwoFlags

namespace TwoFlags

/-! ## C6: what getBestMove returns -/

/-- A position with white pawns a2 and b4 and a black pawn c5, white to
move: the capture b4c5 is the top-ordered move but a2a3 comes first in
generation order. -/
def c6State : GameState :=
  { board := bset (bset (bset emptyBoard 0 1 Cell.W) 1 3 Cell.W) 2 4 Cell.B
    current_player := Cell.W
    en_passant_target := none
    move_history := [] }

theorem insertDesc_perm (x : Int × Move) : ∀ l : List (Int × Move),
    (insertDesc x l).Perm (x :: l) := by
  intro l
  induction l with
  | nil => exact List.Perm.refl _
  | cons y ys ih =>
    simp only [insertDesc]
    by_cases hxy : x.1 < y.1
    · rw [if_pos hxy]
      exact (ih.cons y).trans (List.Perm.swap x y ys)
    · rw [if_neg hxy]

theorem sortDesc_perm : ∀ l : List (Int × Move), (sortDesc l).Perm l := by
  intro l
  induction l with
  | nil => exact List.Perm.refl _
  | cons x xs ih =>
    simp only [sortDesc]
    exact (insertDesc_perm x (sortDesc xs)).trans (ih.cons x)

/-- `order_moves` permutes the moves it is given. -/
theorem order_moves_perm (s : GameState) (ms : List Move) :
    (order_moves s ms).Perm ms := by
  unfold order_moves
  have h1 := sortDesc_perm
    (ms.map fun m =>
      match m with
      | (_, _, to_col, to_row) =>
        let sc1 : Int := if bget s.board to_col to_row = flip_color s.current_player then 100 else 0
        let sc2 := sc1 + (if s.en_passant_target = some (to_col, to_row) then 100 else 0)
        let sc3 := sc2 + (if s.current_player = Cell.W then to_row * 5 else (7 - to_row) * 5)
        let sc4 := sc3 + (if 2 ≤ to_col ∧ to_col ≤ 5 then 3 else 0)
        (sc4, m))
  have h2 := h1.map (fun p : Int × Move => p.2)
  refine h2.trans ?_
  rw [List.map_map]
  have : ∀ l : List Move,
      l.map ((fun p : Int × Move => p.2) ∘ (fun m =>
        match m with
        | (_, _, to_col, to_row) =>
          let sc1 : Int :=
            if bget s.board to_col to_row = flip_color s.current_player then 100 else 0
          let sc2 := sc1 + (if s.en_passant_target = some (to_col, to_row) then 100 else 0)
          let sc3 := sc2 + (if s.current_player = Cell.W then to_row * 5 else (7 - to_row) * 5)
          let sc4 := sc3 + (if 2 ≤ to_col ∧ to_col ≤ 5 then 3 else 0)
          (sc4, m))) = l := by
    intro l
    induction l with
    | nil => rfl
    | cons x xs ih =>
      rw [List.map_cons, ih]
      match x with
      | (a, b, c, d) => rfl
  rw [this]

theorem headI_mem_of_ne {alpha : Type} [Inhabited alpha] {l : List alpha} (h : l ≠ []) :
    l.headI ∈ l := by
  cases l with
  | nil => exact absurd rfl h
  | cons x xs => exact List.mem_cons_self _ _

theorem rootLoopT_some {child : GameState → Int → Int → Bool → Nat → Except Unit (Int × Nat)}
    {q : Sched} {s : GameState} (S : List Move) :
    ∀ (ms : List Move) (bm : Move) (bs alpha beta : Int) (k : Nat)
      (res : (Option Move × Int) × Nat),
      rootLoopT child q s ms bm bs alpha beta k = Except.ok res →
      bm ∈ S → (∀ mv ∈ ms, mv ∈ S) →
      ∃ m, res.1.1 = some m ∧ m ∈ S := by
  intro ms
  induction ms with
  | nil =>
    intro bm bs alpha beta k res hres hbm _
    simp only [rootLoopT] at hres
    obtain ⟨rfl⟩ := Except.ok.inj hres
    exact ⟨bm, rfl, hbm⟩
  | cons mv rest ih =>
    intro bm bs alpha beta k res hres hbm hms
    simp only [rootLoopT] at hres
    by_cases hq : q k = true
    · rw [if_pos hq] at hres; cases hres
    · rw [if_neg (by simpa using hq)] at hres
      cases hchild : child (make_move s mv) (-beta) (-alpha) false (k + 1) with
      | error e => rw [hchild] at hres; cases e; cases hres
      | ok p =>
        rw [hchild] at hres
        refine ih _ _ _ _ _ _ hres ?_ (fun x hx => hms x (List.mem_cons_of_mem _ hx))
        by_cases hbs : bs < -p.1
        · simp only [if_pos hbs]
          exact hms mv (List.mem_cons_self _ _)
        · simp only [if_neg hbs]
          exact hbm

theorem searchRootT_some {ai_color : Cell} {q : Sched} {s : GameState} {d k : Nat}
    {res : (Option Move × Int) × Nat}
    (hres : searchRootT ai_color q s d k = Except.ok res)
    (hne : generate_moves s ≠ []) :
    ∃ m, res.1.1 = some m ∧ m ∈ generate_moves s := by
  unfold searchRootT at hres
  rw [if_neg hne] at hres
  have hperm := order_moves_perm s (generate_moves s)
  have hone : order_moves s (generate_moves s) ≠ [] := by
    intro h0
    exact hne (List.Perm.nil_eq (h0 ▸ hperm)).symm
  refine rootLoopT_some (generate_moves s) _ _ _ _ _ _ _ hres ?_ ?_
  · exact hperm.mem_iff.mp (headI_mem_of_ne hone)
  · intro x hx
    exact hperm.mem_iff.mp hx

theorem gbmLoop_mem (ai_color : Cell) (q : Sched) (s : GameState)
    (hne : generate_moves s ≠ []) :
    ∀ (ds : List Nat) (bm : Move) (k : Nat), bm ∈ generate_moves s →
      gbmLoop ai_color q s ds bm k ∈ generate_moves s := by
  intro ds
  induction ds with
  | nil => intro bm k hbm; exact hbm
  | cons d rest ih =>
    intro bm k hbm
    simp only [gbmLoop]
    by_cases hq : q k = true
    · rw [if_pos hq]; exact hbm
    · rw [if_neg (by simpa using hq)]
      cases hsr : searchRootT ai_color q s d (k + 1) with
      | error e => cases e; exact hbm
      | ok res =>
        obtain ⟨m, hm, hmem⟩ := searchRootT_some hsr hne
        obtain ⟨⟨mv, sc⟩, k2⟩ := res
        simp only at hm
        subst hm
        dsimp only
        by_cases hwin : WIN_VALUE - 100 ≤ sc
        · rw [if_pos hwin]; exact hmem
        · rw [if_neg hwin]; exact ih _ _ hmem

/-- C6 counterexample: with two white pawns a2 and b4 and a black pawn
on c5, the best-scored ordered move is the capture b4c5, but when no
search depth completes before the deadline `get_best_move` falls back to
a2a3 — the first legal move in generation order, not in `order_moves`
order. -/
theorem get_best_move_fallback_generation_order :
    (generate_moves c6State).headI = (0, 1, 0, 2) ∧
    (order_moves c6State (generate_moves c6State)).headI = (1, 3, 2, 4) ∧
    2 ≤ (generate_moves c6State).length ∧
    get_best_move Cell.W stopNow c6State = some (0, 1, 0, 2) ∧
    get_best_move Cell.W stopNow c6State ≠
      some ((order_moves c6State (generate_moves c6State)).headI) := by
  refine ⟨by decide, by decide, by decide, by decide, by decide⟩

theorem gbmLoop_cons (ai_color : Cell) (q : Sched) (s : GameState) (d : Nat)
    (rest : List Nat) (bm : Move) (k : Nat) :
    gbmLoop ai_color q s (d :: rest) bm k =
      (if q k then bm
      else
        match searchRootT ai_color q s d (k + 1) with
        | Except.error () => bm
        | Except.ok ((mv, score), k2) =>
          let best2 := match mv with | some m => m | none => bm
          if WIN_VALUE - 100 ≤ score then best2
          else gbmLoop ai_color q s rest best2 k2) := rfl

/-- C6 amended: `get_best_move` returns no move exactly when the
position has no legal moves; in every other case (any poll schedule) it
returns some legal move; and when no search depth completes before the
deadline — the iterative-deepening loop sees no `search_root` result,
which happens exactly when the very first poll already reports timeout
or the first depth's root search aborts with `TimeoutError` — the move
returned is the first legal move in generation order (not in
`order_moves` order). -/
theorem get_best_move_behavior (ai_color : Cell) (q : Sched) (s : GameState) :
    (get_best_move ai_color q s = none ↔ generate_moves s = []) ∧
    (∀ m, get_best_move ai_color q s = some m → m ∈ generate_moves s) ∧
    (generate_moves s ≠ [] →
      (q 0 = true ∨ searchRootT ai_color q s 1 1 = Except.error ()) →
      get_best_move ai_color q s = some (generate_moves s).headI) := by
  refine ⟨⟨?_, ?_⟩, ?_, ?_⟩
  · intro h
    by_contra hne
    cases hm : generate_moves s with
    | nil => exact hne hm
    | cons m0 rest =>
      simp only [get_best_move, hm] at h
      by_cases hr : rest.length = 0 <;> simp [hr] at h
  · intro h
    simp only [get_best_move, h]
  · intro m hm
    cases hg : generate_moves s with
    | nil => simp only [get_best_move, hg] at hm; cases hm
    | cons m0 rest =>
      simp only [get_best_move, hg] at hm
      by_cases hr : rest.length = 0
      · rw [if_pos hr] at hm
        obtain ⟨rfl⟩ := Option.some.inj hm
        exact List.mem_cons_self _ _
      · rw [if_neg hr] at hm
        obtain ⟨rfl⟩ := Option.some.inj hm
        have := gbmLoop_mem ai_color q s (by rw [hg]; exact List.cons_ne_nil _ _)
          (List.range' 1 49) m0 0 (by rw [hg]; exact List.mem_cons_self _ _)
        rw [hg] at this
        exact this
  · intro hne hnone
    cases hg : generate_moves s with
    | nil => exact absurd hg hne
    | cons m0 rest =>
      simp only [get_best_move, hg]
      by_cases hr : rest.length = 0
      · rw [if_pos hr]; rfl
      · rw [if_neg hr]
        have hrange : List.range' 1 49 = 1 :: List.range' 2 48 := rfl
        rw [hrange, gbmLoop_cons]
        simp only [Nat.zero_add]
        by_cases hq : q 0 = true
        · rw [if_pos hq]
          rfl
        · rw [if_neg (by simpa using hq)]
          rcases hnone with h | h
          · exact absurd h hq
          · rw [h]
            rfl

/-- Witness for C6 amended: the behavior instantiated at the concrete
position `c6State` with the all-stop schedule, whose very first poll
reports timeout. -/
theorem get_best_move_behavior_witness :
    (get_best_move Cell.W stopNow c6State = none ↔ generate_moves c6State = []) ∧
    (∀ m, get_best_move Cell.W stopNow c6State = some m → m ∈ generate_moves c6State) ∧
    (generate_moves c6State ≠ [] →
      (stopNow 0 = true ∨ searchRootT Cell.W stopNow c6State 1 1 = Except.error ()) →
      get_best_move Cell.W stopNow c6State = some (generate_moves c6State).headI) :=
  get_best_move_behavior Cell.W stopNow c6State

end TwoFlags

namespace TwoFlags

/-! ## C4: alpha-beta pruning computes the full negamax score

The spec-side comparison target is `negamaxSpec` / `negamaxRootSpec`
above.  The proof is the standard fail-soft alpha-beta correctness
argument: the value returned under a window `(alpha, beta)` equals the
full negamax value when it falls strictly inside the window, is an upper
bound on it when it fails low, and a lower bound when it fails high. -/

/-- Running maximum of `f` over a move list, seeded with `acc` — the
shape of both the negamax fold and the alpha-beta loop accumulator. -/
def listMax (f : Move → Int) (ms : List Move) (acc : Int) : Int :=
  (ms.map f).foldl max acc

theorem listMax_nil (f : Move → Int) (acc : Int) : listMax f [] acc = acc := rfl

theorem listMax_cons (f : Move → Int) (mv : Move) (rest : List Move) (acc : Int) :
    listMax f (mv :: rest) acc = listMax f rest (max acc (f mv)) := rfl

theorem listMax_max (f : Move → Int) : ∀ (ms : List Move) (a b : Int),
    listMax f ms (max a b) = max (listMax f ms a) b := by
  intro ms
  induction ms with
  | nil => intro a b; rfl
  | cons mv rest ih =>
    intro a b
    rw [listMax_cons, listMax_cons]
    have h1 : max (max a b) (f mv) = max (max a (f mv)) b := by omega
    rw [h1, ih]

theorem le_listMax (f : Move → Int) : ∀ (ms : List Move) (a : Int), a ≤ listMax f ms a := by
  intro ms
  induction ms with
  | nil => intro a; exact le_refl a
  | cons mv rest ih =>
    intro a
    rw [listMax_cons]
    exact le_trans (le_max_left a (f mv)) (ih _)

theorem listMax_perm (f : Move → Int) {ms1 ms2 : List Move} (h : ms1.Perm ms2) :
    ∀ acc : Int, listMax f ms1 acc = listMax f ms2 acc := by
  induction h with
  | nil => intro acc; rfl
  | cons x _ ih =>
    intro acc
    rw [listMax_cons, listMax_cons, ih]
  | swap x y l =>
    intro acc
    rw [listMax_cons, listMax_cons, listMax_cons, listMax_cons]
    have : max (max acc (f y)) (f x) = max (max acc (f x)) (f y) := by omega
    rw [this]
  | trans _ _ ih1 ih2 =>
    intro acc
    rw [ih1, ih2]

/-- The length of a piece list is at most 64. -/
theorem get_all_pieces_length_le (s : GameState) (color : Cell) :
    ((get_all_pieces s color).length : Int) ≤ 64 := by
  have h1 : ((get_all_pieces s color).map (fun _ => (1 : Int))).sum ≤
      ((List.finRange 8).map (fun r => ((List.finRange 8).map
        (fun c => (1 : Int))).sum)).sum := by
    refine pieces_sum_le s color (fun _ => 1) (fun _ _ => 1)
      (by intro r c; dsimp only; omega)
      (by intro r c hb; dsimp only; omega)
  have h2 : ((get_all_pieces s color).map (fun _ => (1 : Int))).sum =
      ((get_all_pieces s color).length : Int) := by
    induction get_all_pieces s color with
    | nil => rfl
    | cons x xs ih => simp only [List.map_cons, List.sum_cons, List.length_cons, ih]; push_cast; ring
  have h3 : ((List.finRange 8).map (fun r => ((List.finRange 8).map
      (fun c => (1 : Int))).sum)).sum = 64 := by decide
  omega

/-- Crude bound on the static evaluation, valid for every state and
every perspective value. -/
theorem evaluate_crude_bound (s : GameState) (color : Cell) :
    -30000 ≤ evaluate s color ∧ evaluate s color ≤ 30000 := by
  by_cases hterm : (is_terminal s).1 = true
  · simp only [evaluate, hterm, if_true, reduceIte, WIN_VALUE]
    split_ifs <;> omega
  · have hterm2 : (is_terminal s).1 = false := by
      cases hv : (is_terminal s).1
      · rfl
      · exact absurd hv hterm
    have heval : evaluate s color =
        (((get_all_pieces s color).length : Int) -
          ((get_all_pieces s (flip_color color)).length : Int)) * material_weight +
        ((get_all_pieces s color).map (myPawnScore s color)).sum -
        ((get_all_pieces s (flip_color color)).map
          (oppPawnScore s (flip_color color))).sum := by
      simp only [evaluate, hterm2, Bool.false_eq_true, if_false]
      rw [foldl_add_sum (myPawnScore s color),
        foldl_sub_sum (oppPawnScore s (flip_color color))]
    have hmycap : ((get_all_pieces s color).map (myPawnScore s color)).sum ≤ 8960 := by
      have hle := pieces_sum_le s color (myPawnScore s color) (fun _ _ => 140)
        (by intro r c; dsimp only; omega)
        (by
          intro r c _
          have hr8 : (r : Nat) < 8 := r.isLt
          dsimp only [myPawnScore, passed_pawn_weight, advancement_weight, center_weight]
          split_ifs <;> omega)
      calc ((get_all_pieces s color).map (myPawnScore s color)).sum ≤ _ := hle
        _ = 8960 := by decide
    have hoppcap : ((get_all_pieces s (flip_color color)).map
        (oppPawnScore s (flip_color color))).sum ≤ 8640 := by
      have hle := pieces_sum_le s (flip_color color) (oppPawnScore s (flip_color color))
        (fun _ _ => 135)
        (by intro r c; dsimp only; omega)
        (by
          intro r c _
          have hr8 : (r : Nat) < 8 := r.isLt
          dsimp only [oppPawnScore, passed_pawn_weight, advancement_weight]
          split_ifs <;> omega)
      calc ((get_all_pieces s (flip_color color)).map
          (oppPawnScore s (flip_color color))).sum ≤ _ := hle
        _ = 8640 := by decide
    have hmy0 := myPawnScore_sum_nonneg s color
    have hopp0 := oppPawnScore_sum_nonneg s (flip_color color)
    have hl1 := get_all_pieces_length_le s color
    have hl2 := get_all_pieces_length_le s (flip_color color)
    have hl3 : (0 : Int) ≤ ((get_all_pieces s color).length : Int) := by positivity
    have hl4 : (0 : Int) ≤ ((get_all_pieces s (flip_color color)).length : Int) := by positivity
    rw [heval]
    simp only [material_weight]
    constructor <;> nlinarith

end TwoFlags

namespace TwoFlags

theorem abLoop_bound (child : GameState → Int → Int → Bool → Int) (s : GameState)
    (beta : Int) (mx : Bool) (Bd : Int)
    (hch : ∀ st a b m, -Bd ≤ child st a b m ∧ child st a b m ≤ Bd) :
    ∀ (ms : List Move) (best alpha : Int),
      (abLoopNT child s ms best alpha beta mx ≤ max best Bd) ∧
      (-Bd ≤ best → -Bd ≤ abLoopNT child s ms best alpha beta mx) ∧
      (ms ≠ [] → -Bd ≤ abLoopNT child s ms best alpha beta mx) := by
  intro ms
  induction ms with
  | nil =>
    intro best alpha
    exact ⟨le_max_left _ _, fun h => h, fun h => absurd rfl h⟩
  | cons mv rest ih =>
    intro best alpha
    have hc := hch (make_move s mv) (-beta) (-alpha) (!mx)
    simp only [abLoopNT]
    by_cases hcut : beta ≤ max alpha (-child (make_move s mv) (-beta) (-alpha) (!mx))
    · rw [if_pos hcut]
      refine ⟨by omega, by omega, fun _ => by omega⟩
    · rw [if_neg hcut]
      obtain ⟨ih1, ih2, _⟩ := ih (max best (-child (make_move s mv) (-beta) (-alpha) (!mx)))
        (max alpha (-child (make_move s mv) (-beta) (-alpha) (!mx)))
      refine ⟨by omega, fun _ => ih2 (by omega), fun _ => ih2 (by omega)⟩

theorem alphaBetaNT_bound (C : Cell) : ∀ (depth : Nat) (s : GameState) (a b : Int) (m : Bool),
    -(30000 + (depth : Int)) ≤ alphaBetaNT C depth s a b m ∧
    alphaBetaNT C depth s a b m ≤ 30000 + (depth : Int) := by
  intro depth
  induction depth with
  | zero =>
    intro s a b m
    by_cases hterm : (is_terminal s).1 = true
    · simp only [alphaBetaNT, hterm, if_true, reduceIte]
      unfold termValue
      cases (is_terminal s).2 with
      | none => dsimp only; omega
      | some w => dsimp only; split_ifs <;> simp only [WIN_VALUE] <;> omega
    · have hterm2 : (is_terminal s).1 = false := by
        cases hv : (is_terminal s).1
        · rfl
        · exact absurd hv hterm
      simp only [alphaBetaNT, hterm2, Bool.false_eq_true, if_false]
      have := evaluate_crude_bound s C
      simp only [Nat.cast_zero]
      omega
  | succ d ihd =>
    intro s a b m
    by_cases hterm : (is_terminal s).1 = true
    · simp only [alphaBetaNT, hterm, if_true, reduceIte]
      unfold termValue
      cases (is_terminal s).2 with
      | none => dsimp only; omega
      | some w => dsimp only; split_ifs <;> simp only [WIN_VALUE] <;> omega
    · have hterm2 : (is_terminal s).1 = false := by
        cases hv : (is_terminal s).1
        · rfl
        · exact absurd hv hterm
      simp only [alphaBetaNT, hterm2, Bool.false_eq_true, if_false]
      obtain ⟨_, _, _, hgen⟩ := nonterminal_facts s hterm2
      have hone : order_moves s (generate_moves s) ≠ [] := by
        intro h0
        exact hgen (List.Perm.nil_eq (h0 ▸ order_moves_perm s (generate_moves s))).symm
      have hch : ∀ st a2 b2 m2,
          -(30000 + (d : Int)) ≤ alphaBetaNT C d st a2 b2 m2 ∧
          alphaBetaNT C d st a2 b2 m2 ≤ 30000 + (d : Int) := fun st a2 b2 m2 => ihd st a2 b2 m2
      obtain ⟨h1, _, h3⟩ := abLoop_bound (fun st a2 b2 m2 => alphaBetaNT C d st a2 b2 m2) s b m
        (30000 + (d : Int)) hch (order_moves s (generate_moves s)) (-INF) a
      have hINF : INF = 1000000000 := rfl
      have := h3 hone
      push_cast
      constructor <;> omega

end TwoFlags

namespace TwoFlags

theorem abLoop_relation (s : GameState) (beta alpha0 : Int) (mx : Bool)
    (child : GameState → Int → Int → Bool → Int) (tval : GameState → Int)
    (hbeta : beta ≤ INF) (halpha0 : -INF ≤ alpha0)
    (hchild : ∀ (st : GameState) (a b : Int) (m : Bool), -INF ≤ a → b ≤ INF → a < b →
      (child st a b m ≤ a → tval st ≤ child st a b m) ∧
      (b ≤ child st a b m → child st a b m ≤ tval st) ∧
      (a < child st a b m → child st a b m < b → child st a b m = tval st)) :
    ∀ (ms : List Move) (best alpha : Int),
      alpha0 ≤ alpha → alpha = max alpha0 best → alpha < beta →
      (abLoopNT child s ms best alpha beta mx ≤ alpha0 →
        listMax (fun mv => -tval (make_move s mv)) ms best ≤
          abLoopNT child s ms best alpha beta mx) ∧
      (beta ≤ abLoopNT child s ms best alpha beta mx →
        abLoopNT child s ms best alpha beta mx ≤
          listMax (fun mv => -tval (make_move s mv)) ms best) ∧
      (alpha0 < abLoopNT child s ms best alpha beta mx →
        abLoopNT child s ms best alpha beta mx < beta →
        abLoopNT child s ms best alpha beta mx =
          listMax (fun mv => -tval (make_move s mv)) ms best) := by
  intro ms
  induction ms with
  | nil =>
    intro best alpha _ _ _
    simp only [abLoopNT, listMax_nil]
    exact ⟨fun _ => le_refl _, fun _ => le_refl _, fun _ _ => trivial⟩
  | cons mv rest ih =>
    intro best alpha ha1 ha2 ha3
    have hw1 : -INF ≤ -beta := by omega
    have hw2 : -alpha ≤ INF := by omega
    have hw3 : -beta < -alpha := by omega
    obtain ⟨hc1, hc2, hc3⟩ := hchild (make_move s mv) (-beta) (-alpha) (!mx) hw1 hw2 hw3
    simp only [abLoopNT, listMax_cons]
    set cv := child (make_move s mv) (-beta) (-alpha) (!mx) with hcv
    set Tc := tval (make_move s mv) with hTc
    have hbM : best ≤ listMax (fun mv2 => -tval (make_move s mv2)) rest best :=
      le_listMax _ rest best
    have hLMc : listMax (fun mv2 => -tval (make_move s mv2)) rest (max best (-cv)) =
        max (listMax (fun mv2 => -tval (make_move s mv2)) rest best) (-cv) :=
      listMax_max _ rest best (-cv)
    have hLMt : listMax (fun mv2 => -tval (make_move s mv2)) rest (max best (-Tc)) =
        max (listMax (fun mv2 => -tval (make_move s mv2)) rest best) (-Tc) :=
      listMax_max _ rest best (-Tc)
    by_cases hcut : beta ≤ max alpha (-cv)
    · rw [if_pos hcut]
      have hsc : beta ≤ -cv := by omega
      have hTle : Tc ≤ cv := hc1 (by omega)
      have hT3 : max best (-Tc) ≤
          listMax (fun mv2 => -tval (make_move s mv2)) rest (max best (-Tc)) :=
        le_listMax _ rest _
      refine ⟨fun hv => by omega, fun _ => by omega, fun _ hv2 => by omega⟩
    · rw [if_neg hcut]
      obtain ⟨ih1, ih2, ih3⟩ := ih (max best (-cv)) (max alpha (-cv))
        (by omega) (by omega) (by omega)
      by_cases hsa : -cv ≤ alpha
      · have h2c : cv ≤ Tc := hc2 (by omega)
        refine ⟨?_, ?_, ?_⟩
        · intro hv
          have := ih1 hv
          omega
        · intro hv
          have := ih2 hv
          omega
        · intro hv1 hv2
          have := ih3 (by omega) hv2
          omega
      · have heq : cv = Tc := hc3 (by omega) (by omega)
        have hTeq : max best (-Tc) = max best (-cv) := by omega
        rw [hTeq]
        exact ⟨ih1, ih2, ih3⟩

theorem alphaBeta_relation (C : Cell) : ∀ (depth : Nat) (s : GameState) (alpha beta : Int)
    (mx : Bool), -INF ≤ alpha → beta ≤ INF → alpha < beta →
    (alphaBetaNT C depth s alpha beta mx ≤ alpha →
      negamaxSpec C depth s ≤ alphaBetaNT C depth s alpha beta mx) ∧
    (beta ≤ alphaBetaNT C depth s alpha beta mx →
      alphaBetaNT C depth s alpha beta mx ≤ negamaxSpec C depth s) ∧
    (alpha < alphaBetaNT C depth s alpha beta mx →
      alphaBetaNT C depth s alpha beta mx < beta →
      alphaBetaNT C depth s alpha beta mx = negamaxSpec C depth s) := by
  intro depth
  induction depth with
  | zero =>
    intro s alpha beta mx _ _ _
    have hv : alphaBetaNT C 0 s alpha beta mx = negamaxSpec C 0 s := by
      by_cases hterm : (is_terminal s).1 = true
      · simp only [alphaBetaNT, negamaxSpec, hterm, if_true, reduceIte]
      · have hterm2 : (is_terminal s).1 = false := by
          cases hval : (is_terminal s).1
          · rfl
          · exact absurd hval hterm
        simp only [alphaBetaNT, negamaxSpec, hterm2, Bool.false_eq_true, if_false]
    rw [hv]
    exact ⟨fun _ => le_refl _, fun _ => le_refl _, fun _ _ => rfl⟩
  | succ d ihd =>
    intro s alpha beta mx h1 h2 h3
    by_cases hterm : (is_terminal s).1 = true
    · have hv : alphaBetaNT C (d + 1) s alpha beta mx = negamaxSpec C (d + 1) s := by
        simp only [alphaBetaNT, negamaxSpec, hterm, if_true, reduceIte]
      rw [hv]
      exact ⟨fun _ => le_refl _, fun _ => le_refl _, fun _ _ => rfl⟩
    · have hterm2 : (is_terminal s).1 = false := by
        cases hval : (is_terminal s).1
        · rfl
        · exact absurd hval hterm
      have hup : alphaBetaNT C (d + 1) s alpha beta mx =
          abLoopNT (fun st a b m2 => alphaBetaNT C d st a b m2) s
            (order_moves s (generate_moves s)) (-INF) alpha beta mx := by
        simp only [alphaBetaNT, hterm2, Bool.false_eq_true, if_false]
      have htt : negamaxSpec C (d + 1) s =
          listMax (fun mv => -negamaxSpec C d (make_move s mv))
            (order_moves s (generate_moves s)) (-INF) := by
        have hbody : negamaxSpec C (d + 1) s =
            listMax (fun mv => -negamaxSpec C d (make_move s mv)) (generate_moves s) (-INF) := by
          simp only [negamaxSpec, hterm2, Bool.false_eq_true, if_false]
          rfl
        rw [hbody]
        exact (listMax_perm _ (order_moves_perm s (generate_moves s)) (-INF)).symm
      obtain ⟨l1, l2, l3⟩ := abLoop_relation s beta alpha mx
        (fun st a b m2 => alphaBetaNT C d st a b m2) (fun st => negamaxSpec C d st)
        h2 h1 (fun st a b m2 ha hb hab => ihd st a b m2 ha hb hab)
        (order_moves s (generate_moves s)) (-INF) alpha (le_refl alpha) (by omega) h3
      try dsimp only at l1 l2 l3
      rw [hup, htt]
      exact ⟨l1, l2, l3⟩

end TwoFlags

namespace TwoFlags

theorem rootLoopNT_exact (s : GameState)
    (child : GameState → Int → Int → Bool → Int) (tval : GameState → Int) (Bd : Int)
    (hBd : Bd < INF)
    (hbnd : ∀ st a b m, -Bd ≤ child st a b m ∧ child st a b m ≤ Bd)
    (hchild : ∀ (st : GameState) (a b : Int) (m : Bool), -INF ≤ a → b ≤ INF → a < b →
      (child st a b m ≤ a → tval st ≤ child st a b m) ∧
      (b ≤ child st a b m → child st a b m ≤ tval st) ∧
      (a < child st a b m → child st a b m < b → child st a b m = tval st)) :
    ∀ (ms : List Move) (bm : Move) (bs : Int), -INF ≤ bs → bs < INF →
      (rootLoopNT child s ms bm bs bs INF).2 =
        listMax (fun mv => -tval (make_move s mv)) ms bs := by
  intro ms
  induction ms with
  | nil => intro bm bs _ _; rfl
  | cons mv rest ih =>
    intro bm bs hbs1 hbs2
    have hINF : INF = 1000000000 := rfl
    have hw1 : -INF ≤ -INF := le_refl _
    have hw2 : -bs ≤ INF := by omega
    have hw3 : -INF < -bs := by omega
    obtain ⟨_, hc2, hc3⟩ := hchild (make_move s mv) (-INF) (-bs) false hw1 hw2 hw3
    obtain ⟨hb1, hb2⟩ := hbnd (make_move s mv) (-INF) (-bs) false
    simp only [rootLoopNT, listMax_cons]
    set cv := child (make_move s mv) (-INF) (-bs) false with hcv
    set Tc := tval (make_move s mv) with hTcv
    have hbs2eq : (if bs < -cv then -cv else bs) = max bs (-cv) := by omega
    have halpha2 : max bs (-cv) = max bs (-cv) := rfl
    rw [hbs2eq]
    have hmaxeq : max bs (-Tc) = max bs (-cv) := by
      by_cases hbslt : bs < -cv
      · have heq := hc3 (by omega) (by omega)
        omega
      · have hle := hc2 (by omega)
        omega
    rw [hmaxeq]
    exact ih (if bs < -cv then mv else bm) (max bs (-cv)) (by omega) (by omega)

/-- C4: for a non-terminal position and a search depth in the engine's
deepening range, with the time budget never triggering an abort, the
score computed by the alpha-beta-pruned root search equals the score of
an unpruned full-width negamax search of the same position at the same
depth with the same terminal values and leaf evaluation. -/
theorem searchRoot_eq_negamax (C : Cell) (s : GameState) (d : Nat)
    (hterm : (is_terminal s).1 = false) (hd : d ≤ 49) :
    (searchRootNT C s d).2 = negamaxRootSpec C s d := by
  obtain ⟨_, _, _, hgen⟩ := nonterminal_facts s hterm
  have hINF : INF = 1000000000 := rfl
  have hdle : ((d - 1 : Nat) : Int) ≤ 48 := by omega
  have hroot := rootLoopNT_exact s (fun st a b m => alphaBetaNT C (d - 1) st a b m)
    (fun st => negamaxSpec C (d - 1) st) (30000 + ((d - 1 : Nat) : Int))
    (by omega)
    (fun st a b m => alphaBetaNT_bound C (d - 1) st a b m)
    (fun st a b m ha hb hab => alphaBeta_relation C (d - 1) st a b m ha hb hab)
    (order_moves s (generate_moves s)) (order_moves s (generate_moves s)).headI (-INF)
    (le_refl _) (by omega)
  try dsimp only at hroot
  simp only [searchRootNT]
  rw [if_neg hgen]
  rw [hroot]
  exact listMax_perm _ (order_moves_perm s (generate_moves s)) (-INF)

/-- Witness for C4: the equivalence at the initial position (a position
with far more than 3 plies of play available) at search depth 3. -/
theorem searchRoot_eq_negamax_witness :
    (is_terminal initialState).1 = false ∧
    (searchRootNT Cell.W initialState 3).2 = negamaxRootSpec Cell.W initialState 3 :=
  ⟨by decide, searchRoot_eq_negamax Cell.W initialState 3 (by decide) (by omega)⟩

end TwoFlags
